import Mathlib

/-!
# textutils

Shallow embeddings of the two commands of the repository, `cmd/randomize/main.go`
and `cmd/fields/main.go`, and proofs about them.  The definitions of both come
first, the theorems after them.

## The `randomize` command

Modelling conventions.

* A record is a line of text (`String`).  A `bufio.Scanner` is modelled by the
  token it currently holds and the lines it has not yet delivered; the
  tokenisation of bytes into lines is the library's and is not modelled.
* The process-wide random source of `math/rand` is the sequence `Rand` of its
  raw draws; every call consumes one draw and reduces it into its range, so
  every outcome of the source during a run is some such sequence.
* A `*os.File` is modelled by its name, the file system by a map from names to
  the lines a file holds.
* A fatal exit (`log.Fatal`), a run-time panic and an exhausted loop budget are
  all `none`.
-/

namespace Randomize

/-! ## The random source -/

/-- The random source: the raw draws still to come, in order.  Once the list
has run out the source delivers zeros. -/
structure Rand where
  draws : List Nat
deriving DecidableEq, Repr

/-- The raw value of the next draw. -/
def Rand.peek (rng : Rand) : Nat := rng.draws.headD 0

/-- The source after one draw has been consumed. -/
def Rand.tail (rng : Rand) : Rand := ⟨rng.draws.tail⟩

/-- A source that delivers the given draws, then zeros. -/
def Rand.ofList (ds : List Nat) : Rand := ⟨ds⟩

/-- Model of `rand.Int()`: a non-negative 63-bit integer. -/
def randInt (rng : Rand) : Nat × Rand := (rng.peek % 2 ^ 63, rng.tail)

/-! ## Temporary files -/

/-- The files this run has created: `files name` is the sequence of lines the
file `name` holds (`none`: no such file); names from `next` on are unused. -/
structure FS where
  files : Nat → Option (List String)
  next : Nat

/-- No file at all. -/
def FS.empty : FS := ⟨fun _ => none, 0⟩

/-- The files `0, 1, ...` holding the given contents. -/
def FS.ofList (contents : List (List String)) : FS := ⟨fun n => contents[n]?, contents.length⟩

/-- The lines of a file, nothing for a missing one. -/
def FS.lines (fs : FS) (name : Nat) : List String := (fs.files name).getD []

/-- Lines appended to a file by a flushed writer. -/
def FS.append (fs : FS) (name : Nat) (written : List String) : FS :=
  { fs with files := fun n => if n = name then some (fs.lines name ++ written) else fs.files n }

/-- Model of `os.Remove`. -/
def FS.remove (fs : FS) (name : Nat) : FS :=
  { fs with files := fun n => if n = name then none else fs.files n }

/-- Model of `getTempFile`: `ioutil.TempFile` creates an empty file under a name
not in use. -/
def getTempFile (fs : FS) : Nat × FS :=
  (fs.next, ⟨fun n => if n = fs.next then some [] else fs.files n, fs.next + 1⟩)

/-! ## Read-ahead scanners and `merge` -/

/-- A `bufio.Scanner` over a file: `text` is what `Text()` returns, `rest` the
lines `Scan()` has not delivered yet. -/
structure Scanner where
  text : String
  rest : List String
deriving DecidableEq, Repr

/-- Model of `bufio.NewScanner(fp)` for a file holding `lines`. -/
def newScanner (lines : List String) : Scanner := ⟨"", lines⟩

/-- Model of `Scan()`: `none` when no line is left, else the advanced scanner. -/
def Scanner.scan (s : Scanner) : Option Scanner :=
  match s.rest with
  | [] => none
  | l :: ls => some ⟨l, ls⟩

/-- The struct `rahScanner`; `scanner = none` is the nil pointer. -/
structure rahScanner where
  scanner : Option Scanner
  rnd : Nat
deriving DecidableEq, Repr

/-- Model of `(*rahScanner).read`.  The outer `none` is the nil dereference of
`rah.scanner.Scan()` on an exhausted cursor. -/
def rahScanner.read (rah : rahScanner) (rng : Rand) : Option (rahScanner × Rand) :=
  match rah.scanner with
  | none => none
  | some sc =>
    match sc.scan with
    | none => some ({ rah with scanner := none }, rng)
    | some sc' => some ({ scanner := some sc', rnd := (randInt rng).1 }, (randInt rng).2)

/-- The inner `for _, scanner := range scanners` of `merge`, from position `i`
on; `largest` is `largestScanner`, kept as its position and value. -/
def largestFrom : List rahScanner → Nat → Option (Nat × rahScanner) →
    Option (Nat × rahScanner)
  | [], _, largest => largest
  | scanner :: rest, i, largest =>
    match scanner.scanner with
    | none => largestFrom rest (i + 1) largest
    | some _ =>
      match largest with
      | none => largestFrom rest (i + 1) (some (i, scanner))
      | some (k, l) =>
        if scanner.rnd > l.rnd then largestFrom rest (i + 1) (some (i, scanner))
        else largestFrom rest (i + 1) (some (k, l))

/-- The scanner `largestScanner` points at after the inner loop. -/
def largestScanner (scanners : List rahScanner) : Option (Nat × rahScanner) :=
  largestFrom scanners 0 none

/-- One iteration of the outer `for` of `merge`.  `some none` is the `break`;
`some (some (line, scanners, rng))` is an iteration that wrote `line`. -/
def mergeStep (scanners : List rahScanner) (rng : Rand) :
    Option (Option (String × List rahScanner × Rand)) :=
  match largestScanner scanners with
  | none => some none
  | some (i, largest) =>
    match largest.scanner with
    | none => none
    | some sc =>
      match largest.read rng with
      | none => none
      | some (largest', rng') => some (some (sc.text, scanners.set i largest', rng'))

/-- The outer `for` of `merge`, with a budget of iterations; `written` is what
the writer has received so far. -/
def mergeLoop : Nat → List rahScanner → Rand → List String → Option (List String × Rand)
  | 0, _, _, _ => none
  | fuel + 1, scanners, rng, written =>
    match mergeStep scanners rng with
    | none => none
    | some none => some (written, rng)
    | some (some (line, scanners', rng')) => mergeLoop fuel scanners' rng' (written ++ [line])

/-- The first loop of `merge`: each source is opened by name (`none`: `os.Open`
fails and `log.Fatal` exits) and its read-ahead scanner is primed by one `read`. -/
def openScanners (fs : FS) : List Nat → Rand → Option (List rahScanner × Rand)
  | [], rng => some ([], rng)
  | file :: more, rng =>
    match fs.files file with
    | none => none
    | some lines =>
      match (rahScanner.mk (some (newScanner lines)) 0).read rng with
      | none => none
      | some (rah, rng') =>
        match openScanners fs more rng' with
        | none => none
        | some (rahs, rng'') => some (rah :: rahs, rng'')

/-- The records a cursor has still to give: its current one and the unread. -/
def rahScanner.pending (rah : rahScanner) : List String :=
  match rah.scanner with
  | none => []
  | some sc => sc.text :: sc.rest

/-- The number of records still to be written: the variant of the outer loop. -/
def pendingCount (scanners : List rahScanner) : Nat :=
  (scanners.map fun rah => rah.pending.length).sum

/-- Model of `merge(dest, source)`. -/
def merge (fs : FS) (dest : Nat) (source : List Nat) (rng : Rand) : Option (FS × Rand) :=
  match openScanners fs source rng with
  | none => none
  | some (scanners, rng') =>
    match mergeLoop (pendingCount scanners + 1) scanners rng' [] with
    | none => none
    | some (written, rng'') => some (fs.append dest written, rng'')

/-! ## Batches -/

/-- The constant `maxLines`. -/
def maxLines : Nat := 1024

set_option linter.dupNamespace false in
/-- The struct `buffer`. -/
structure buffer where
  buffer : List String
  length : Nat
deriving DecidableEq, Repr

/-- The loop of `fillBuffer` after its initialisation, with a budget of
iterations.  A store outside the slice is a panic. -/
def fillLoop : Nat → Scanner → buffer → Option (Scanner × buffer)
  | 0, _, _ => none
  | fuel + 1, scanner, lineBuffer =>
    if lineBuffer.length < maxLines then
      match scanner.scan with
      | none => some (scanner, lineBuffer)
      | some scanner' =>
        if lineBuffer.length < lineBuffer.buffer.length then
          fillLoop fuel scanner'
            { buffer := lineBuffer.buffer.set lineBuffer.length scanner'.text,
              length := lineBuffer.length + 1 }
        else none
    else some (scanner, lineBuffer)

/-- Model of `fillBuffer`: the returned flag, the scanner and the buffer after
the call. -/
def fillBuffer (scanner : Scanner) (lineBuffer : buffer) : Option (Bool × Scanner × buffer) :=
  match fillLoop (maxLines + 1) scanner { lineBuffer with length := 0 } with
  | none => none
  | some (scanner', lineBuffer') => some (lineBuffer'.length != 0, scanner', lineBuffer')

/-- The exchange `l[i], l[j] = l[j], l[i]`; positions outside the slice leave it
as it is. -/
def swapAt {α : Type} (l : List α) (i j : Nat) : List α :=
  match l[i]?, l[j]? with
  | some a, some b => (l.set i b).set j a
  | _, _ => l

/-- Modelled from the spec: `rand.Shuffle(n, swap)` of Go's `math/rand`, which
is not part of the repository.  For each index from last to first the index is
swapped with a chosen index in `[0, i]`; the choice for index `i` is the next
draw reduced modulo `i + 1`. -/
def randShuffle {σ : Type} : Nat → (Nat → Nat → σ → σ) → σ → Rand → σ × Rand
  | 0, _, st, rng => (st, rng)
  | i + 1, swap, st, rng => randShuffle i swap (swap i (rng.peek % (i + 1)) st) rng.tail

/-- The first `n` iterations of the write loop of `sortandwrite`; reading
outside the slice is a panic. -/
def bufferLines (lineBuffer : List String) : Nat → Option (List String)
  | 0 => some []
  | n + 1 =>
    match bufferLines lineBuffer n, lineBuffer[n]? with
    | some ls, some l => some (ls ++ [l])
    | _, _ => none

/-- Model of `sortandwrite`: the new file, the file system, the buffer (shuffled
in place) and the random source after the call. -/
def sortandwrite (fs : FS) (lineBuffer : buffer) (rng : Rand) :
    Option (Nat × FS × buffer × Rand) :=
  let shuffled := randShuffle lineBuffer.length (fun i j b => swapAt b i j) lineBuffer.buffer rng
  let tmp := getTempFile fs
  match bufferLines shuffled.1 lineBuffer.length with
  | none => none
  | some written =>
    some (tmp.1, tmp.2.append tmp.1 written, { lineBuffer with buffer := shuffled.1 }, shuffled.2)

/-! ## The controller: `main` -/

/-- The batching loop of `main`, with a budget of iterations. -/
def batches : Nat → Scanner → buffer → FS → List Nat → Rand →
    Option (FS × List Nat × Rand)
  | 0, _, _, _, _, _ => none
  | fuel + 1, scanner, lineBuffer, fs, writtenFiles, rng =>
    match fillBuffer scanner lineBuffer with
    | none => none
    | some (false, _, _) => some (fs, writtenFiles, rng)
    | some (true, scanner', lineBuffer') =>
      match sortandwrite fs lineBuffer' rng with
      | none => none
      | some (tmpfile, fs', lineBuffer'', rng') =>
        batches fuel scanner' lineBuffer'' fs' (writtenFiles ++ [tmpfile]) rng'

/-- One iteration of the merge loop of `main`. -/
def mergeRound (fs : FS) (writtenFiles : List Nat) (rng : Rand) :
    Option (FS × List Nat × Rand) :=
  let sliceSize := min 32 writtenFiles.length
  let tmp := getTempFile fs
  let mergeTmpFile := tmp.1
  let writtenFiles' := writtenFiles ++ [mergeTmpFile]
  let chunk := writtenFiles'.take sliceSize
  match merge tmp.2 mergeTmpFile chunk rng with
  | none => none
  | some (fs', rng') => some (chunk.foldl FS.remove fs', writtenFiles'.drop sliceSize, rng')

/-- The merge loop `for len(writtenFiles) != 1` of `main`, with a budget of
iterations; the last component counts the rounds performed. -/
def mergeRounds : Nat → FS → List Nat → Rand → Option (FS × List Nat × Rand × Nat)
  | 0, _, _, _ => none
  | fuel + 1, fs, writtenFiles, rng =>
    if writtenFiles.length != 1 then
      match mergeRound fs writtenFiles rng with
      | none => none
      | some (fs', writtenFiles', rng') =>
        match mergeRounds fuel fs' writtenFiles' rng' with
        | none => none
        | some (fs'', writtenFiles'', rng'', rounds) => some (fs'', writtenFiles'', rng'', rounds + 1)
    else some (fs, writtenFiles, rng, 0)

/-- What a run of `main` leaves behind. -/
structure Outcome where
  stdout : List String
  spills : Nat
  rounds : Nat
  fs : FS

/-- Model of `main`: `stdin` is the sequence of records of the input, `rng` the
seeded random source.  `spills` counts the files of the batching phase, `rounds`
the merge rounds; `fs` is the file system after the deferred clean-up. -/
def main (stdin : List String) (rng : Rand) : Option Outcome :=
  let lineBuffer : buffer := { buffer := List.replicate maxLines "", length := 0 }
  match batches (stdin.length + 1) (newScanner stdin) lineBuffer FS.empty [] rng with
  | none => none
  | some (fs, writtenFiles, rng') =>
    if writtenFiles.length = 0 then
      some { stdout := [], spills := 0, rounds := 0, fs := fs }
    else
      let shuffled := randShuffle writtenFiles.length (fun i j w => swapAt w i j) writtenFiles rng'
      match mergeRounds writtenFiles.length fs shuffled.1 shuffled.2 with
      | none => none
      | some (fs', writtenFiles', _, rounds) =>
        match writtenFiles'[0]? with
        | none => none
        | some file =>
          match fs'.files file with
          | none => none
          | some lines =>
            some { stdout := lines, spills := writtenFiles.length, rounds := rounds,
                   fs := writtenFiles'.foldl FS.remove fs' }

/-! ## Notions used in the statements -/

/-- Three cursors of which the last two hold the same, greatest key. -/
def tiedScanners : List rahScanner :=
  [⟨some ⟨"a", ["b"]⟩, 1⟩, ⟨some ⟨"c", []⟩, 5⟩, ⟨some ⟨"d", ["e"]⟩, 5⟩]

/-- A small buffer with three live records and two stale ones. -/
def staleBuffer : buffer := ⟨["a", "b", "c", "old", "older"], 3⟩

/-- The lines `sortandwrite` spills to its new file. -/
def spillOf (fs : FS) (lineBuffer : buffer) (rng : Rand) : Option (List String) :=
  (sortandwrite fs lineBuffer rng).map fun r => r.2.1.lines r.1

/-- A choice sequence for a batch of `n` records: in the order of the draws, a
chosen index for each position from `n - 1` down to `0`, the one for position
`i` in `[0, i]`. -/
def isChoiceSeq : Nat → List Nat → Bool
  | 0, [] => true
  | n + 1, j :: js => decide (j ≤ n) && isChoiceSeq n js
  | _, _ => false

/-- All choice sequences for a batch of `n` records. -/
def choiceSeqs : Nat → List (List Nat)
  | 0 => [[]]
  | n + 1 => (List.range (n + 1)).flatMap fun j => (choiceSeqs n).map fun js => j :: js

/-- The invariant of the work queue: the names in `writtenFiles` are pairwise
distinct, have all been handed out, and name existing files. -/
def QueueOk (fs : FS) (writtenFiles : List Nat) : Prop :=
  writtenFiles.Nodup ∧ (∀ f ∈ writtenFiles, f < fs.next) ∧ ∀ f ∈ writtenFiles, fs.files f ≠ none

/-- The records held by the files of the work queue, in queue order. -/
def queueLines (fs : FS) (writtenFiles : List Nat) : List String :=
  (writtenFiles.map fs.lines).flatten

/-- The current record and key of every cursor that is not exhausted. -/
def livePairs (scanners : List rahScanner) : List (String × Nat) :=
  scanners.filterMap fun s => s.scanner.map fun sc => (sc.text, s.rnd)

/-- The lines a call of `merge` leaves in `dest`. -/
def mergedLines (fs : FS) (dest : Nat) (source : List Nat) (rng : Rand) : Option (List String) :=
  (merge fs dest source rng).map fun r => r.1.lines dest

/-- The random source that delivers the keys `k 0, k 1, ...`. -/
def keySource {N m : Nat} (k : Fin N → Fin m) : Rand := Rand.ofList (List.ofFn fun i => (k i).val)

/-- The number of tie-free sequences of `N` keys from a range of `m` values
under which `merge` writes `ys`. -/
def producedBy (m N : Nat) (fs : FS) (dest : Nat) (source : List Nat) (ys : List String) : Nat :=
  (Finset.univ.filter fun k : Fin N → Fin m =>
    Function.Injective k ∧ mergedLines fs dest source (keySource k) = some ys).card

/-- The files `0, ..., n - 1`, file `i` holding the single record `x i`. -/
def singleRecordFiles {n : Nat} (x : Fin n → String) : FS := FS.ofList (List.ofFn fun i => [x i])

/-- One file with one record and one with two. -/
def unequalFiles : FS := FS.ofList [["a"], ["b1", "b2"]]

/-- The subsequence of `out` at the positions to which `labels` gives the
label `i`. -/
def pickedBy (labels : List Nat) (out : List String) (i : Nat) : List String :=
  ((out.zip labels).filter fun p => p.2 = i).map Prod.fst

end Randomize

/-!
# The `fields` command

A shallow embedding of `cmd/fields/main.go`.  A Go string is modelled by a Lean
`String`, taken apart as its list of characters; positions count characters.
Go's `int` is a 64-bit signed integer, modelled by `Int` with an explicit wrap
where the source adds.  A run-time panic and the exit of the usage message are
`none`.
-/

namespace Fields

/-! ## Formatters -/

/-- The interface `formatter` with its three implementations. -/
inductive formatter where
  | literalFormatter (literal : String)
  | fieldFormatter (index : Int)
  | reverseFieldFormatter (index : Int)
deriving DecidableEq, Repr

/-- A 64-bit signed integer after an addition that may wrap around. -/
def wrap64 (x : Int) : Int := (x + 2 ^ 63) % 2 ^ 64 - 2 ^ 63

/-- The element `parts[index]`; an index outside the slice is a panic. -/
def indexParts (parts : List String) (index : Int) : Option String :=
  if 0 ≤ index then parts[index.toNat]? else none

/-- Model of the three `transform` methods. -/
def formatter.transform : formatter → List String → Option String
  | .literalFormatter literal, _ => some literal
  | .fieldFormatter index, parts =>
    if index < (parts.length : Int) then indexParts parts index else some ""
  | .reverseFieldFormatter index, parts =>
    if wrap64 ((parts.length : Int) + index) ≥ 0 then
      indexParts parts (wrap64 ((parts.length : Int) + index))
    else some ""

/-! ## Splitting a line -/

/-- Model of `unicode.IsSpace`. -/
def isSpace (c : Char) : Bool :=
  c = '\t' || c = '\n' || c.toNat = 0x0B || c.toNat = 0x0C || c = '\r' || c = ' ' ||
  c.toNat = 0x85 || c.toNat = 0xA0 || c.toNat = 0x1680 ||
  (0x2000 ≤ c.toNat && c.toNat ≤ 0x200A) || c.toNat = 0x2028 || c.toNat = 0x2029 ||
  c.toNat = 0x202F || c.toNat = 0x205F || c.toNat = 0x3000

/-- The scan of `strings.Fields`: `cur` is the field being collected. -/
def fieldsFrom : List Char → List Char → List String
  | [], cur => if cur = [] then [] else [String.mk cur]
  | c :: cs, cur =>
    if isSpace c then
      if cur = [] then fieldsFrom cs [] else String.mk cur :: fieldsFrom cs []
    else fieldsFrom cs (cur ++ [c])

/-- Model of `strings.Fields`: the maximal runs of characters that are not white
space. -/
def stringsFields (s : String) : List String := fieldsFrom s.toList []

/-- The scan of `strings.Split` for a non-empty separator: `cur` is the piece
being collected, `skip` the number of characters of a separator still to pass. -/
def splitFrom (sep : List Char) : List Char → List Char → Nat → List String
  | [], cur, _ => [String.mk cur]
  | _ :: cs, cur, skip + 1 => splitFrom sep cs cur skip
  | c :: cs, cur, 0 =>
    if sep.isPrefixOf (c :: cs) then String.mk cur :: splitFrom sep cs [] (sep.length - 1)
    else splitFrom sep cs (cur ++ [c]) 0

/-- Model of `strings.Split(s, sep)` for a non-empty `sep`. -/
def stringsSplit (s sep : String) : List String := splitFrom sep.toList s.toList [] 0

/-- Model of `getSplitter`; `none` is the nil pointer. -/
def getSplitter (separator : Option String) : String → List String :=
  match separator with
  | none => stringsFields
  | some sep => if sep = "" then stringsFields else fun s => stringsSplit s sep

/-! ## Parsing the pattern -/

/-- The number of leading decimal digits of `s`. -/
def digitsLength (s : List Char) : Nat := (s.takeWhile Char.isDigit).length

/-- The length of the match of the expression `\$-?[0-9]+` at the start of `s`,
if there is one. -/
def matchLength (s : List Char) : Option Nat :=
  match s with
  | [] => none
  | c :: rest =>
    if c = '$' then
      match rest with
      | [] => none
      | d :: rest' =>
        if d = '-' then
          if digitsLength rest' = 0 then none else some (2 + digitsLength rest')
        else if digitsLength rest = 0 then none else some (1 + digitsLength rest)
    else none

/-- The scan of `FindAllStringIndex` from position `pos`; `skip` is the number
of characters of the last match still to pass. -/
def findAllFrom : List Char → Nat → Nat → List (Nat × Nat)
  | [], _, _ => []
  | _ :: cs, pos, skip + 1 => findAllFrom cs (pos + 1) skip
  | c :: cs, pos, 0 =>
    match matchLength (c :: cs) with
    | some len => (pos, pos + len) :: findAllFrom cs (pos + 1) (len - 1)
    | none => findAllFrom cs (pos + 1) 0

/-- Model of `re.FindAllStringIndex(pattern, -1)` for the expression
`(\$-?[0-9]+)`: the successive leftmost matches, each as its start and end. -/
def FindAllStringIndex (pattern : List Char) : List (Nat × Nat) := findAllFrom pattern 0 0

/-- The value of a string of decimal digits read after `acc`. -/
def digitsValue : List Char → Nat → Nat
  | [], acc => acc
  | c :: cs, acc => digitsValue cs (acc * 10 + (c.toNat - 48))

/-- Model of `strconv.Atoi` with the error dropped: `0` on a syntax error, the
nearest 64-bit integer when the value is out of range. -/
def Atoi (s : List Char) : Int :=
  match s with
  | '-' :: ds =>
    if ds ≠ [] ∧ ds.all Char.isDigit then max (-(digitsValue ds 0 : Int)) (-2 ^ 63) else 0
  | '+' :: ds =>
    if ds ≠ [] ∧ ds.all Char.isDigit then min (digitsValue ds 0 : Int) (2 ^ 63 - 1) else 0
  | ds =>
    if ds ≠ [] ∧ ds.all Char.isDigit then min (digitsValue ds 0 : Int) (2 ^ 63 - 1) else 0

/-- The slice `pattern[lo:hi]`. -/
def slice (pattern : List Char) (lo hi : Nat) : List Char := (pattern.drop lo).take (hi - lo)

/-- The loop of `parsePattern` over the matches; the result is `previous` and
`patternFormatter` after the loop. -/
def parseLoop (pattern : List Char) : List (Nat × Nat) → Nat → List formatter →
    Nat × List formatter
  | [], previous, patternFormatter => (previous, patternFormatter)
  | m :: result, previous, patternFormatter =>
    let withLiteral :=
      if m.1 > previous then
        patternFormatter ++ [formatter.literalFormatter (String.mk (slice pattern previous m.1))]
      else patternFormatter
    let index := Atoi (slice pattern (m.1 + 1) m.2)
    if index < 0 then
      parseLoop pattern result m.2 (withLiteral ++ [formatter.reverseFieldFormatter index])
    else
      parseLoop pattern result m.2 (withLiteral ++ [formatter.fieldFormatter index])

/-- Model of `parsePattern`. -/
def parsePattern (pattern : String) : List formatter :=
  let looped := parseLoop pattern.toList (FindAllStringIndex pattern.toList) 0 []
  if looped.1 < pattern.toList.length then
    looped.2 ++
      [formatter.literalFormatter (String.mk (slice pattern.toList looped.1 pattern.toList.length))]
  else looped.2

/-! ## Printing a line -/

/-- The loop of `execute`: what the formatters print for one line. -/
def render : List formatter → List String → Option String
  | [], _ => some ""
  | f :: formatters, fields =>
    match f.transform fields, render formatters fields with
    | some s, some t => some (s ++ t)
    | _, _ => none

/-- Model of `execute`: the text printed for one line, with its newline. -/
def execute (formatters : List formatter) (fields : List String) : Option String :=
  (render formatters fields).map fun s => s ++ "\n"

/-- The loop of `main` over the lines of the input. -/
def executeLines (formatters : List formatter) (splitter : String → List String) :
    List String → Option (List String)
  | [] => some []
  | line :: lines =>
    match execute formatters (splitter line), executeLines formatters splitter lines with
    | some s, some rest => some (s :: rest)
    | _, _ => none

/-- Model of `main`: `separator` is the value of the flag, `leftArgs` the other
arguments, `stdin` the lines of the input; the result is what is printed, line
by line. -/
def main (separator : String) (leftArgs : List String) (stdin : List String) :
    Option (List String) :=
  match leftArgs with
  | [format] => executeLines (parsePattern format) (getSplitter (some separator)) stdin
  | _ => none

/-! ## Notions used in the statements -/

/-- The pattern holds a field reference: a `$` followed by an optional `-` and
at least one digit. -/
def hasFieldReference (pattern : List Char) : Prop :=
  ∃ (before after : List Char) (d : Char), d.isDigit = true ∧
    (pattern = before ++ '$' :: d :: after ∨ pattern = before ++ '$' :: '-' :: d :: after)

/-- What `parsePattern` promises of a formatter it builds. -/
def wellFormed : formatter → Prop
  | .literalFormatter literal => literal ≠ ""
  | .fieldFormatter index => 0 ≤ index ∧ index < 2 ^ 63
  | .reverseFieldFormatter index => -2 ^ 63 ≤ index ∧ index < 0


end Fields

/-!
# The `randomize` command: theorems
-/

namespace Randomize

/-! ## The selection rule of `merge` -/

theorem largestFrom_eq_none {scanners : List rahScanner} {i : Nat}
    {largest : Option (Nat × rahScanner)} (h : largestFrom scanners i largest = none) :
    largest = none ∧ ∀ s ∈ scanners, s.scanner = none := by
  induction scanners generalizing i largest with
  | nil => simpa [largestFrom] using h
  | cons s rest ih =>
    unfold largestFrom at h
    split at h
    · next hs =>
      obtain ⟨h1, h2⟩ := ih h
      exact ⟨h1, by simpa [hs] using h2⟩
    · split at h
      · exact absurd (ih h).1 (by simp)
      · split at h <;> exact absurd (ih h).1 (by simp)

theorem largestFrom_eq_some {scanners : List rahScanner} {i : Nat}
    {largest : Option (Nat × rahScanner)} {k : Nat} {l : rahScanner}
    (h : largestFrom scanners i largest = some (k, l)) :
    (∀ s ∈ scanners, s.scanner ≠ none → s.rnd ≤ l.rnd) ∧
    (∀ k0 l0, largest = some (k0, l0) → l0.rnd ≤ l.rnd) ∧
    (largest = some (k, l) ∨
      ∃ p, k = i + p ∧ scanners[p]? = some l ∧ l.scanner ≠ none ∧
        (∀ k0 l0, largest = some (k0, l0) → l0.rnd < l.rnd) ∧
        ∀ q s, q < p → scanners[q]? = some s → s.scanner ≠ none → s.rnd < l.rnd) := by
  induction scanners generalizing i largest with
  | nil =>
    simp only [largestFrom] at h
    subst h
    simp
  | cons s rest ih =>
    unfold largestFrom at h
    split at h
    · next hs =>
      obtain ⟨h1, h2, h3⟩ := ih h
      refine ⟨?_, h2, ?_⟩
      · intro t ht hne
        rcases List.mem_cons.1 ht with rfl | ht
        · exact absurd hs hne
        · exact h1 t ht hne
      · rcases h3 with h3 | ⟨p, hk, hp, hl, hlt, hq⟩
        · exact Or.inl h3
        · refine Or.inr ⟨p + 1, by omega, by simpa using hp, hl, hlt, ?_⟩
          intro q t hq' hqt hne
          cases q with
          | zero => simp at hqt; subst hqt; exact absurd hs hne
          | succ q => exact hq q t (by omega) (by simpa using hqt) hne
    · next sc hs =>
      split at h
      · obtain ⟨h1, h2, h3⟩ := ih h
        have hsl : s.rnd ≤ l.rnd := h2 i s rfl
        refine ⟨?_, by simp, Or.inr ?_⟩
        · intro t ht hne
          rcases List.mem_cons.1 ht with rfl | ht
          · exact hsl
          · exact h1 t ht hne
        · rcases h3 with h3 | ⟨p, hk, hp, hl, hlt, hq⟩
          · simp only [Option.some.injEq, Prod.mk.injEq] at h3
            obtain ⟨rfl, rfl⟩ := h3
            exact ⟨0, rfl, by simp, by simp [hs], by simp, by simp⟩
          · refine ⟨p + 1, by omega, by simpa using hp, hl, by simp, ?_⟩
            intro q t hq' hqt hne
            cases q with
            | zero => simp at hqt; subst hqt; exact hlt i _ rfl
            | succ q => exact hq q t (by omega) (by simpa using hqt) hne
      · next k0 l0 =>
        split at h
        · next hgt =>
          obtain ⟨h1, h2, h3⟩ := ih h
          have hsl : s.rnd ≤ l.rnd := h2 i s rfl
          refine ⟨?_, ?_, Or.inr ?_⟩
          · intro t ht hne
            rcases List.mem_cons.1 ht with rfl | ht
            · exact hsl
            · exact h1 t ht hne
          · intro k1 l1 h01
            simp only [Option.some.injEq, Prod.mk.injEq] at h01
            obtain ⟨rfl, rfl⟩ := h01
            omega
          · rcases h3 with h3 | ⟨p, hk, hp, hl, hlt, hq⟩
            · simp only [Option.some.injEq, Prod.mk.injEq] at h3
              obtain ⟨rfl, rfl⟩ := h3
              refine ⟨0, rfl, by simp, by simp [hs], ?_, by simp⟩
              intro k1 l1 h01
              simp only [Option.some.injEq, Prod.mk.injEq] at h01
              obtain ⟨rfl, rfl⟩ := h01
              exact hgt
            · refine ⟨p + 1, by omega, by simpa using hp, hl, ?_, ?_⟩
              · intro k1 l1 h01
                simp only [Option.some.injEq, Prod.mk.injEq] at h01
                obtain ⟨rfl, rfl⟩ := h01
                have := hlt i s rfl
                omega
              · intro q t hq' hqt hne
                cases q with
                | zero => simp at hqt; subst hqt; exact hlt i _ rfl
                | succ q => exact hq q t (by omega) (by simpa using hqt) hne
        · next hgt =>
          obtain ⟨h1, h2, h3⟩ := ih h
          have hsl : l0.rnd ≤ l.rnd := h2 k0 l0 rfl
          refine ⟨?_, h2, ?_⟩
          · intro t ht hne
            rcases List.mem_cons.1 ht with rfl | ht
            · omega
            · exact h1 t ht hne
          · rcases h3 with h3 | ⟨p, hk, hp, hl, hlt, hq⟩
            · exact Or.inl h3
            · refine Or.inr ⟨p + 1, by omega, by simpa using hp, hl, hlt, ?_⟩
              intro q t hq' hqt hne
              cases q with
              | zero =>
                simp at hqt; subst hqt
                have := hlt k0 l0 rfl
                omega
              | succ q => exact hq q t (by omega) (by simpa using hqt) hne


theorem largestScanner_eq_some {scanners : List rahScanner} {k : Nat} {l : rahScanner}
    (h : largestScanner scanners = some (k, l)) :
    scanners[k]? = some l ∧ l.scanner ≠ none ∧
    (∀ s ∈ scanners, s.scanner ≠ none → s.rnd ≤ l.rnd) ∧
    ∀ q s, q < k → scanners[q]? = some s → s.scanner ≠ none → s.rnd < l.rnd := by
  obtain ⟨h1, -, h3⟩ := largestFrom_eq_some h
  rcases h3 with h3 | ⟨p, hk, hp, hl, -, hq⟩
  · simp at h3
  · have : k = p := by omega
    subst this
    exact ⟨hp, hl, h1, hq⟩

theorem largestScanner_eq_none {scanners : List rahScanner}
    (h : largestScanner scanners = none) : ∀ s ∈ scanners, s.scanner = none :=
  (largestFrom_eq_none h).2

/-- C4: selection rule of `merge`.  When some cursor is not exhausted, one
iteration of the output loop writes the current record of a non-exhausted cursor
`i` whose key is greatest, every non-exhausted cursor before `i` has a strictly
smaller key (the earliest of the greatest wins), and only cursor `i` changes: it
takes its next record with a freshly drawn key, or becomes exhausted without a
draw when no record is left. -/
theorem merge_selection_rule (scanners : List rahScanner) (rng : Rand)
    (h : ∃ s ∈ scanners, s.scanner ≠ none) :
    ∃ (i : Nat) (cur : rahScanner) (sc : Scanner) (cur' : rahScanner) (rng' : Rand),
      scanners[i]? = some cur ∧ cur.scanner = some sc ∧
      (∀ (j : Nat) (s : rahScanner), scanners[j]? = some s → s.scanner ≠ none →
        s.rnd ≤ cur.rnd) ∧
      (∀ (j : Nat) (s : rahScanner), j < i → scanners[j]? = some s → s.scanner ≠ none → s.rnd < cur.rnd) ∧
      mergeStep scanners rng = some (some (sc.text, scanners.set i cur', rng')) ∧
      (match sc.rest with
        | [] => cur' = ⟨none, cur.rnd⟩ ∧ rng' = rng
        | l :: ls => cur' = ⟨some ⟨l, ls⟩, rng.peek % 2 ^ 63⟩ ∧ rng' = rng.tail) ∧
      ∀ j : Nat, j ≠ i → (scanners.set i cur')[j]? = scanners[j]? := by
  cases hl : largestScanner scanners with
  | none =>
    obtain ⟨s, hs, hne⟩ := h
    exact absurd (largestScanner_eq_none hl s hs) hne
  | some kl =>
    obtain ⟨k, l⟩ := kl
    obtain ⟨h1, h2, h3, h4⟩ := largestScanner_eq_some hl
    cases hsc : l.scanner with
    | none => exact absurd hsc h2
    | some sc =>
      have hle : ∀ (j : Nat) (s : rahScanner), scanners[j]? = some s → s.scanner ≠ none → s.rnd ≤ l.rnd :=
        fun j s hj => h3 s (List.getElem?_mem hj)
      have hset : ∀ c : rahScanner, ∀ j : Nat, j ≠ k → (scanners.set k c)[j]? = scanners[j]? :=
        fun c j hj => by rw [List.getElem?_set_ne (Ne.symm hj)]
      cases hr : sc.rest with
      | nil =>
        refine ⟨k, l, sc, ⟨none, l.rnd⟩, rng, h1, hsc, hle, h4, ?_, ?_, hset _⟩
        · simp [mergeStep, hl, hsc, rahScanner.read, Scanner.scan, hr]
        · rw [hr]; exact ⟨rfl, rfl⟩
      | cons x xs =>
        refine ⟨k, l, sc, ⟨some ⟨x, xs⟩, rng.peek % 2 ^ 63⟩, rng.tail, h1, hsc, hle, h4, ?_, ?_,
          hset _⟩
        · simp [mergeStep, hl, hsc, rahScanner.read, Scanner.scan, hr, randInt]
        · rw [hr]; exact ⟨rfl, rfl⟩

/-- C4, at a concrete input: three cursors, the last two tied on the greatest
key; the earlier of the two is chosen and becomes exhausted without a draw. -/
theorem merge_selection_rule_witness :
    (∃ s ∈ tiedScanners, s.scanner ≠ none) ∧
    mergeStep tiedScanners (Rand.ofList [7]) =
      some (some ("c", [⟨some ⟨"a", ["b"]⟩, 1⟩, ⟨none, 5⟩, ⟨some ⟨"d", ["e"]⟩, 5⟩],
        Rand.ofList [7])) ∧
    ∃ (i : Nat) (cur : rahScanner) (sc : Scanner) (cur' : rahScanner) (rng' : Rand),
      tiedScanners[i]? = some cur ∧ cur.scanner = some sc ∧
      (∀ (j : Nat) (s : rahScanner), tiedScanners[j]? = some s → s.scanner ≠ none →
        s.rnd ≤ cur.rnd) ∧
      (∀ (j : Nat) (s : rahScanner), j < i → tiedScanners[j]? = some s → s.scanner ≠ none →
        s.rnd < cur.rnd) ∧
      mergeStep tiedScanners (Rand.ofList [7]) =
        some (some (sc.text, tiedScanners.set i cur', rng')) ∧
      (match sc.rest with
        | [] => cur' = ⟨none, cur.rnd⟩ ∧ rng' = Rand.ofList [7]
        | l :: ls => cur' = ⟨some ⟨l, ls⟩, (Rand.ofList [7]).peek % 2 ^ 63⟩ ∧
            rng' = (Rand.ofList [7]).tail) ∧
      ∀ j : Nat, j ≠ i → (tiedScanners.set i cur')[j]? = tiedScanners[j]? :=
  ⟨⟨⟨some ⟨"a", ["b"]⟩, 1⟩, by decide, by decide⟩, by decide,
   merge_selection_rule tiedScanners (Rand.ofList [7]) ⟨⟨some ⟨"a", ["b"]⟩, 1⟩, by decide, by decide⟩⟩

/-! ## `merge` writes an interleaving of its sources -/

/-- What one `read` does to the pending records of a live cursor. -/
theorem read_pending {rah : rahScanner} {sc : Scanner} (rng : Rand) (h : rah.scanner = some sc) :
    ∃ rah' rng', rah.read rng = some (rah', rng') ∧ rah'.pending = sc.rest := by
  cases hr : sc.rest with
  | nil =>
    exact ⟨⟨none, rah.rnd⟩, rng, by simp [rahScanner.read, h, Scanner.scan, hr],
      by simp [rahScanner.pending]⟩
  | cons x xs =>
    exact ⟨⟨some ⟨x, xs⟩, (randInt rng).1⟩, (randInt rng).2,
      by simp [rahScanner.read, h, Scanner.scan, hr], by simp [rahScanner.pending]⟩

theorem pendingCount_set {scanners : List rahScanner} {k : Nat} {l l' : rahScanner}
    (hk : scanners[k]? = some l) (h : l.pending.length = l'.pending.length + 1) :
    pendingCount scanners = pendingCount (scanners.set k l') + 1 := by
  induction scanners generalizing k with
  | nil => simp at hk
  | cons s rest ih =>
    cases k with
    | zero =>
      simp at hk; subst hk
      simp [pendingCount, h]; omega
    | succ k =>
      have := ih (k := k) (by simpa using hk)
      simp [pendingCount] at this ⊢
      omega

theorem perm_join_set {scanners : List rahScanner} {k : Nat} {l l' : rahScanner} {x : String}
    (hk : scanners[k]? = some l) (h : l.pending = x :: l'.pending) :
    ((scanners.map rahScanner.pending).flatten).Perm
      (x :: ((scanners.set k l').map rahScanner.pending).flatten) := by
  induction scanners generalizing k with
  | nil => simp at hk
  | cons s rest ih =>
    cases k with
    | zero =>
      simp at hk; subst hk
      simp [h]
    | succ k =>
      have := ih (k := k) (by simpa using hk)
      simp only [List.map_cons, List.flatten_cons, List.set_cons_succ]
      exact (List.Perm.append_left _ this).trans List.perm_middle

theorem pickedBy_cons (k : Nat) (labels : List Nat) (x : String) (out : List String) (i : Nat) :
    pickedBy (k :: labels) (x :: out) i =
      if k = i then x :: pickedBy labels out i else pickedBy labels out i := by
  unfold pickedBy
  by_cases h : k = i <;> simp [List.filter_cons, h]


theorem flatten_pending_of_exhausted {scanners : List rahScanner}
    (h : ∀ s ∈ scanners, s.scanner = none) :
    (scanners.map rahScanner.pending).flatten = [] := by
  induction scanners with
  | nil => rfl
  | cons s rest ih =>
    have hs : s.pending = [] := by simp [rahScanner.pending, h s (List.mem_cons_self _ _)]
    simp [hs, ih fun t ht => h t (List.mem_cons_of_mem _ ht)]

/-- The output loop of `merge` from any state: with a budget above the number of
pending records it ends by the `break`, and what it writes is an interleaving
of the pending records of the cursors. -/
theorem mergeLoop_spec (fuel : Nat) (scanners : List rahScanner) (rng : Rand)
    (written : List String) (hfuel : pendingCount scanners < fuel) :
    ∃ (out : List String) (rng' : Rand) (labels : List Nat),
      mergeLoop fuel scanners rng written = some (written ++ out, rng') ∧
      out.Perm (scanners.map rahScanner.pending).flatten ∧
      labels.length = out.length ∧
      (∀ l ∈ labels, l < scanners.length) ∧
      ∀ (i : Nat) (rah : rahScanner), scanners[i]? = some rah →
        pickedBy labels out i = rah.pending := by
  induction fuel generalizing scanners rng written with
  | zero => omega
  | succ fuel ih =>
    cases hl : largestScanner scanners with
    | none =>
      have hall := largestScanner_eq_none hl
      refine ⟨[], rng, [], by simp [mergeLoop, mergeStep, hl], ?_, rfl, by simp, ?_⟩
      · rw [flatten_pending_of_exhausted hall]
      · intro i rah hi
        simp [pickedBy, rahScanner.pending, hall rah (List.getElem?_mem hi)]
    | some kl =>
      obtain ⟨k, l⟩ := kl
      obtain ⟨h1, h2, -, -⟩ := largestScanner_eq_some hl
      cases hsc : l.scanner with
      | none => exact absurd hsc h2
      | some sc =>
        obtain ⟨rah', rng', hread, hpend⟩ := read_pending rng hsc
        have hlp : l.pending = sc.text :: rah'.pending := by
          rw [hpend]; simp [rahScanner.pending, hsc]
        have hcount := @pendingCount_set scanners k l rah' h1 (by simp [hlp])
        obtain ⟨out, rng'', labels, hloop, hperm, hlen, hlt, hpick⟩ :=
          ih (scanners.set k rah') rng' (written ++ [sc.text]) (by omega)
        have hk : k < scanners.length := (List.getElem?_eq_some_iff.1 h1).1
        refine ⟨sc.text :: out, rng'', k :: labels, ?_, ?_, by simp [hlen], ?_, ?_⟩
        · simp [mergeLoop, mergeStep, hl, hsc, hread, hloop]
        · exact (hperm.cons _).trans (perm_join_set h1 hlp).symm
        · intro x hx
          rcases List.mem_cons.1 hx with rfl | hx
          · exact hk
          · simpa using hlt x hx
        · intro i rah hi
          rw [pickedBy_cons]
          by_cases hki : k = i
          · subst hki
            have : rah = l := by rw [h1] at hi; exact (Option.some.inj hi).symm
            subst this
            rw [if_pos rfl, hlp, hpick k rah' (by simp [hk])]
          · rw [if_neg hki]
            exact hpick i rah (by rw [List.getElem?_set_ne hki]; exact hi)

theorem openScanners_spec (fs : FS) (source : List Nat) (rng : Rand)
    (h : ∀ f ∈ source, fs.files f ≠ none) :
    ∃ (scanners : List rahScanner) (rng' : Rand),
      openScanners fs source rng = some (scanners, rng') ∧
      scanners.map rahScanner.pending = source.map fs.lines := by
  induction source generalizing rng with
  | nil => exact ⟨[], rng, rfl, rfl⟩
  | cons f more ih =>
    cases hf : fs.files f with
    | none => exact absurd hf (h f (List.mem_cons_self _ _))
    | some lines =>
      obtain ⟨rah, rng1, hread, hpend⟩ :=
        @read_pending ⟨some (newScanner lines), 0⟩ (newScanner lines) rng rfl
      obtain ⟨rahs, rng2, hopen, hmap⟩ := ih rng1 fun g hg => h g (List.mem_cons_of_mem _ hg)
      refine ⟨rah :: rahs, rng2, by simp [openScanners, hf, hread, hopen], ?_⟩
      simp [hmap, hpend, newScanner, FS.lines, hf]

/-- What `merge` does when every source exists: it returns, the lines it appends
to `dest` are an interleaving of the lines of the sources. -/
theorem merge_spec (fs : FS) (dest : Nat) (source : List Nat) (rng : Rand)
    (h : ∀ f ∈ source, fs.files f ≠ none) :
    ∃ (written : List String) (rng' : Rand) (labels : List Nat),
      merge fs dest source rng = some (fs.append dest written, rng') ∧
      written.Perm (source.map fs.lines).flatten ∧
      labels.length = written.length ∧
      (∀ l ∈ labels, l < source.length) ∧
      ∀ (i : Nat) (f : Nat), source[i]? = some f → pickedBy labels written i = fs.lines f := by
  obtain ⟨scanners, rng1, hopen, hmap⟩ := openScanners_spec fs source rng h
  obtain ⟨out, rng2, labels, hloop, hperm, hlen, hlt, hpick⟩ :=
    mergeLoop_spec (pendingCount scanners + 1) scanners rng1 [] (Nat.lt_succ_self _)
  have hlength : scanners.length = source.length := by
    simpa using congrArg List.length hmap
  refine ⟨out, rng2, labels, ?_, hmap ▸ hperm, hlen, fun l hl => hlength ▸ hlt l hl, ?_⟩
  · simp [merge, hopen, hloop]
  · intro i f hi
    have hi' : i < scanners.length := hlength ▸ (List.getElem?_eq_some_iff.1 hi).1
    rw [hpick i scanners[i] (by simp [hi'])]
    have := congrArg (fun l => l[i]?) hmap
    simp only [List.getElem?_map, hi, List.getElem?_eq_getElem hi', Option.map_some'] at this
    exact Option.some.inj this

theorem cons_set_perm {α : Type} {l : List α} {i : Nat} {a : α} (b : α) (h : l[i]? = some a) :
    (a :: l.set i b).Perm (b :: l) := by
  induction l generalizing i with
  | nil => simp at h
  | cons x l ih =>
    cases i with
    | zero =>
      simp at h; subst h
      exact List.Perm.swap _ _ _
    | succ i =>
      have := ih (i := i) (by simpa using h)
      exact (List.Perm.swap _ _ _).trans ((this.cons x).trans (List.Perm.swap _ _ _))

theorem swapAt_perm {α : Type} (l : List α) (i j : Nat) : (swapAt l i j).Perm l := by
  unfold swapAt
  split
  · next a b hi hj =>
    have hj' : (l.set i b)[j]? = some b := by
      by_cases hij : i = j
      · subst hij
        simp [List.getElem?_set_self, (List.getElem?_eq_some_iff.1 hi).1]
      · rw [List.getElem?_set_ne hij]; exact hj
    have h1 := cons_set_perm a hj'
    have h2 := cons_set_perm b hi
    exact (h1.trans h2).cons_inv
  · exact List.Perm.refl _

theorem swapAt_length {α : Type} (l : List α) (i j : Nat) : (swapAt l i j).length = l.length :=
  (swapAt_perm l i j).length_eq

theorem swapAt_drop {α : Type} (l : List α) {i j m : Nat} (hi : i < m) (hj : j < m) :
    (swapAt l i j).drop m = l.drop m := by
  unfold swapAt
  split
  · rw [List.drop_set_of_lt _ _ hj, List.drop_set_of_lt _ _ hi]
  · rfl

theorem swapAt_getElem? {α : Type} (l : List α) {i j : Nat} (hi : i < l.length)
    (hj : j < l.length) : (swapAt l i j)[i]? = l[j]? := by
  unfold swapAt
  rw [List.getElem?_eq_getElem hi, List.getElem?_eq_getElem hj]
  simp only
  by_cases hij : j = i
  · subst hij; simp [hj]
  · rw [List.getElem?_set_ne hij]; simp [hi]

theorem randShuffle_perm {α : Type} (n : Nat) (l : List α) (rng : Rand) :
    (randShuffle n (fun i j b => swapAt b i j) l rng).1.Perm l := by
  induction n generalizing l rng with
  | zero => exact List.Perm.refl _
  | succ n ih => exact (ih _ _).trans (swapAt_perm _ _ _)

theorem randShuffle_drop {α : Type} (n : Nat) (l : List α) (rng : Rand) :
    (randShuffle n (fun i j b => swapAt b i j) l rng).1.drop n = l.drop n := by
  induction n generalizing l rng with
  | zero => rfl
  | succ n ih =>
    have h := ih (swapAt l n (rng.peek % (n + 1))) rng.tail
    have hs : (swapAt l n (rng.peek % (n + 1))).drop (n + 1) = l.drop (n + 1) :=
      swapAt_drop l (Nat.lt_succ_self n) (Nat.mod_lt _ (Nat.succ_pos n))
    show (randShuffle n _ (swapAt l n (rng.peek % (n + 1))) rng.tail).1.drop (n + 1) = _
    have h' := congrArg (List.drop 1) h
    rw [List.drop_drop, List.drop_drop] at h'
    exact h'.trans hs

theorem bufferLines_eq {l : List String} {n : Nat} (h : n ≤ l.length) :
    bufferLines l n = some (l.take n) := by
  induction n with
  | zero => rfl
  | succ n ih =>
    have hn : n < l.length := h
    rw [bufferLines, ih (Nat.le_of_lt hn), List.take_succ, List.getElem?_eq_getElem hn]
    rfl


/-- What `sortandwrite` does on a buffer whose length fits its slice. -/
theorem sortandwrite_spec (fs : FS) (lb : buffer) (rng : Rand)
    (hlen : lb.length ≤ lb.buffer.length) :
    ∃ (fs' : FS) (lb' : buffer) (rng' : Rand) (written : List String),
      sortandwrite fs lb rng = some (fs.next, fs', lb', rng') ∧
      fs'.files fs.next = some written ∧
      fs'.next = fs.next + 1 ∧
      (∀ f, f ≠ fs.next → fs'.files f = fs.files f) ∧
      written = lb'.buffer.take lb.length ∧
      written.Perm (lb.buffer.take lb.length) ∧
      lb'.buffer.drop lb.length = lb.buffer.drop lb.length ∧
      lb'.buffer.length = lb.buffer.length ∧
      lb'.length = lb.length := by
  have hperm := randShuffle_perm lb.length lb.buffer rng
  have hdrop := randShuffle_drop lb.length lb.buffer rng
  generalize hsh : randShuffle lb.length (fun i j b => swapAt b i j) lb.buffer rng = sh at *
  have hlen' : lb.length ≤ sh.1.length := by rw [hperm.length_eq]; exact hlen
  refine ⟨(getTempFile fs).2.append fs.next (sh.1.take lb.length), ⟨sh.1, lb.length⟩, sh.2,
    sh.1.take lb.length, ?_, ?_, ?_, ?_, rfl, ?_, hdrop,
    hperm.length_eq, rfl⟩
  · simp only [sortandwrite, hsh, bufferLines_eq hlen', getTempFile]
  · simp [FS.append, FS.lines, getTempFile]
  · simp [FS.append, getTempFile]
  · intro f hf
    simp [FS.append, getTempFile, hf]
  · have h1 : (sh.1.take lb.length ++ sh.1.drop lb.length).Perm
        (lb.buffer.take lb.length ++ lb.buffer.drop lb.length) := by
      rw [List.take_append_drop, List.take_append_drop]; exact hperm
    rw [hdrop] at h1
    exact (List.perm_append_right_iff _).1 h1

/-- C8: `sortandwrite` writes a permutation of the live batch only.  For every
buffer whose length does not exceed its capacity and every outcome of the random
source, the call returns a new file holding exactly `length` lines, a
permutation of `buffer[0 .. length)`; they are the first `length` entries of the
shuffled buffer, and the entries from `length` on are where they were. -/
theorem sortandwrite_writes_live_batch (fs : FS) (lineBuffer : buffer) (rng : Rand)
    (hlen : lineBuffer.length ≤ lineBuffer.buffer.length) :
    ∃ (tmpfile : Nat) (fs' : FS) (lineBuffer' : buffer) (rng' : Rand) (written : List String),
      sortandwrite fs lineBuffer rng = some (tmpfile, fs', lineBuffer', rng') ∧
      fs'.files tmpfile = some written ∧
      written.length = lineBuffer.length ∧
      written.Perm (lineBuffer.buffer.take lineBuffer.length) ∧
      written = lineBuffer'.buffer.take lineBuffer.length ∧
      lineBuffer'.buffer.drop lineBuffer.length = lineBuffer.buffer.drop lineBuffer.length := by
  obtain ⟨fs', lb', rng', written, h1, h2, -, -, h5, h6, h7, -, -⟩ :=
    sortandwrite_spec fs lineBuffer rng hlen
  refine ⟨fs.next, fs', lb', rng', written, h1, h2, ?_, h6, h5, h7⟩
  rw [h6.length_eq, List.length_take, Nat.min_eq_left hlen]

/-- C8, at a concrete input: three live records and two stale ones. -/
theorem sortandwrite_writes_live_batch_witness :
    staleBuffer.length ≤ staleBuffer.buffer.length ∧
    (sortandwrite FS.empty staleBuffer (Rand.ofList [1, 0, 0])).map
      (fun r => (r.1, r.2.1.files r.1, r.2.2.1)) =
      some (0, some ["c", "a", "b"], ⟨["c", "a", "b", "old", "older"], 3⟩) ∧
    ∃ (tmpfile : Nat) (fs' : FS) (lineBuffer' : buffer) (rng' : Rand) (written : List String),
      sortandwrite FS.empty staleBuffer (Rand.ofList [1, 0, 0]) =
        some (tmpfile, fs', lineBuffer', rng') ∧
      fs'.files tmpfile = some written ∧
      written.length = staleBuffer.length ∧
      written.Perm (staleBuffer.buffer.take staleBuffer.length) ∧
      written = lineBuffer'.buffer.take staleBuffer.length ∧
      lineBuffer'.buffer.drop staleBuffer.length = staleBuffer.buffer.drop staleBuffer.length :=
  ⟨by decide, by decide,
   sortandwrite_writes_live_batch FS.empty staleBuffer (Rand.ofList [1, 0, 0]) (by decide)⟩

/-! ## The shuffle is one-to-one onto the orderings of the batch -/

theorem perm_take_of_drop_eq {α : Type} {l₁ l₂ : List α} {n : Nat} (h : l₁.Perm l₂)
    (hd : l₁.drop n = l₂.drop n) : (l₁.take n).Perm (l₂.take n) := by
  have h1 : (l₁.take n ++ l₁.drop n).Perm (l₂.take n ++ l₂.drop n) := by
    rw [List.take_append_drop, List.take_append_drop]; exact h
  rw [hd] at h1
  exact (List.perm_append_right_iff _).1 h1

theorem randShuffle_cons {α : Type} (n j : Nat) (js : List Nat) (l : List α) (hj : j ≤ n) :
    (randShuffle (n + 1) (fun i j b => swapAt b i j) l (Rand.ofList (j :: js))).1 =
      (randShuffle n (fun i j b => swapAt b i j) (swapAt l n j) (Rand.ofList js)).1 := by
  have : j % (n + 1) = j := Nat.mod_eq_of_lt (by omega)
  simp [randShuffle, Rand.peek, Rand.tail, Rand.ofList, this]

theorem randShuffle_surj {α : Type} (n : Nat) (l zs : List α) (hn : n ≤ l.length)
    (hperm : zs.Perm l) (hdrop : zs.drop n = l.drop n) :
    ∃ js, isChoiceSeq n js = true ∧
      (randShuffle n (fun i j b => swapAt b i j) l (Rand.ofList js)).1 = zs := by
  induction n generalizing l with
  | zero => exact ⟨[], rfl, by simpa using hdrop.symm⟩
  | succ n ih =>
    have hzl : zs.length = l.length := hperm.length_eq
    have hnz : n < zs.length := by omega
    have hnl : n < l.length := by omega
    have hmem : zs[n] ∈ l.take (n + 1) :=
      (perm_take_of_drop_eq hperm hdrop).subset
        (List.mem_take_iff_getElem.2 ⟨n, by simp; omega, rfl⟩)
    obtain ⟨j, hj, hjy⟩ := List.mem_take_iff_getElem.1 hmem
    have hj' : j < n + 1 := by have := hj; simp at this; omega
    have hjl : j < l.length := by omega
    have hn1 : (swapAt l n j)[n]? = some zs[n] := by
      rw [swapAt_getElem? l hnl hjl, List.getElem?_eq_getElem hjl, hjy]
    have hd1 : (swapAt l n j).drop n = zs.drop n := by
      have hlen : n < (swapAt l n j).length := by rw [swapAt_length]; exact hnl
      rw [List.drop_eq_getElem_cons hlen, List.drop_eq_getElem_cons hnz,
        swapAt_drop l (Nat.lt_succ_self n) hj', hdrop]
      congr 1
      have := List.getElem?_eq_getElem hlen
      rw [hn1] at this
      exact (Option.some.inj this).symm
    obtain ⟨js, hjs, hR⟩ := ih (swapAt l n j) (by rw [swapAt_length]; omega)
      (hperm.trans (swapAt_perm l n j).symm) hd1.symm
    refine ⟨j :: js, by simp [isChoiceSeq, hjs]; omega, ?_⟩
    rw [randShuffle_cons n j js l (by omega), hR]

theorem randShuffle_inj {α : Type} (n : Nat) (l : List α) (js js' : List Nat)
    (hn : n ≤ l.length) (hnd : (l.take n).Nodup)
    (hjs : isChoiceSeq n js = true) (hjs' : isChoiceSeq n js' = true)
    (heq : (randShuffle n (fun i j b => swapAt b i j) l (Rand.ofList js)).1 =
      (randShuffle n (fun i j b => swapAt b i j) l (Rand.ofList js')).1) : js = js' := by
  induction n generalizing l js js' with
  | zero =>
    cases js <;> cases js' <;> simp_all [isChoiceSeq]
  | succ n ih =>
    cases js with
    | nil => simp [isChoiceSeq] at hjs
    | cons j r =>
      cases js' with
      | nil => simp [isChoiceSeq] at hjs'
      | cons j' r' =>
        simp only [isChoiceSeq, Bool.and_eq_true, decide_eq_true_eq] at hjs hjs'
        rw [randShuffle_cons n j r l hjs.1, randShuffle_cons n j' r' l hjs'.1] at heq
        have hnl : n < l.length := by omega
        have hjl : j < l.length := by omega
        have hjl' : j' < l.length := by omega
        have hd := congrArg (fun z => (List.drop n z)[0]?) heq
        simp only [randShuffle_drop, List.getElem?_drop, Nat.add_zero] at hd
        rw [swapAt_getElem? l hnl hjl, swapAt_getElem? l hnl hjl',
          List.getElem?_eq_getElem hjl, List.getElem?_eq_getElem hjl'] at hd
        have hjj : j = j' := by
          have h1 : j < (l.take (n + 1)).length := by simp; omega
          have h2 : j' < (l.take (n + 1)).length := by simp; omega
          have := (@List.Nodup.getElem_inj_iff _ _ hnd j h1 j' h2).1
            (by simpa using Option.some.inj hd)
          exact this
        subst hjj
        have hnd1 : ((swapAt l n j).take n).Nodup := by
          have hp : ((swapAt l n j).take (n + 1)).Perm (l.take (n + 1)) :=
            perm_take_of_drop_eq (swapAt_perm l n j)
              (swapAt_drop l (Nat.lt_succ_self n) (by omega))
          have := hp.nodup_iff.2 hnd
          exact this.sublist (List.take_sublist_take_left _ (Nat.le_succ n))
        rw [ih (swapAt l n j) r r' (by rw [swapAt_length]; omega) hnd1 hjs.2 hjs'.2 heq]


theorem choiceSeqs_length (n : Nat) : (choiceSeqs n).length = Nat.factorial n := by
  induction n with
  | zero => rfl
  | succ n ih =>
    simp [choiceSeqs, List.length_flatMap, Function.comp_def, ih, Nat.factorial_succ]

theorem mem_choiceSeqs (n : Nat) (js : List Nat) :
    js ∈ choiceSeqs n ↔ isChoiceSeq n js = true := by
  induction n generalizing js with
  | zero => cases js <;> simp [choiceSeqs, isChoiceSeq]
  | succ n ih =>
    cases js with
    | nil => simp [choiceSeqs, isChoiceSeq]
    | cons j r =>
      simp only [choiceSeqs, List.mem_flatMap, List.mem_range, List.mem_map, List.cons.injEq,
        isChoiceSeq, Bool.and_eq_true, decide_eq_true_eq]
      constructor
      · rintro ⟨a, ha, b, hb, rfl, rfl⟩
        exact ⟨by omega, (ih _).1 hb⟩
      · rintro ⟨hj, hr⟩
        exact ⟨j, by omega, r, (ih _).2 hr, rfl, rfl⟩

theorem spillOf_eq (fs : FS) (lb : buffer) (rng : Rand) (hlen : lb.length ≤ lb.buffer.length) :
    spillOf fs lb rng =
      some ((randShuffle lb.length (fun i j b => swapAt b i j) lb.buffer rng).1.take lb.length) := by
  have hl : lb.length ≤ (randShuffle lb.length (fun i j b => swapAt b i j) lb.buffer rng).1.length := by
    rw [(randShuffle_perm _ _ _).length_eq]; exact hlen
  simp [spillOf, sortandwrite, bufferLines_eq hl, FS.append, FS.lines, getTempFile]

/-- C9: the batch shuffle is uniform.  For a buffer whose live batch
`buffer[0 .. length)` holds pairwise distinct records, every choice sequence
(for each index `i` from last to first a chosen index in `[0, i]`) makes
`sortandwrite` spill a permutation of the batch, and every permutation of the
batch is spilled by exactly one choice sequence; the choice sequences are those
listed by `choiceSeqs`, and there are `length!` of them. -/
theorem shuffle_uniform (fs : FS) (lineBuffer : buffer)
    (hlen : lineBuffer.length ≤ lineBuffer.buffer.length)
    (hnd : (lineBuffer.buffer.take lineBuffer.length).Nodup) :
    (∀ js, isChoiceSeq lineBuffer.length js = true →
      ∃ ys, spillOf fs lineBuffer (Rand.ofList js) = some ys ∧
        ys.Perm (lineBuffer.buffer.take lineBuffer.length)) ∧
    (∀ ys, ys.Perm (lineBuffer.buffer.take lineBuffer.length) →
      ∃! js, isChoiceSeq lineBuffer.length js = true ∧
        spillOf fs lineBuffer (Rand.ofList js) = some ys) ∧
    (∀ js, js ∈ choiceSeqs lineBuffer.length ↔ isChoiceSeq lineBuffer.length js = true) ∧
    (choiceSeqs lineBuffer.length).length = Nat.factorial lineBuffer.length := by
  refine ⟨?_, ?_, mem_choiceSeqs _, choiceSeqs_length _⟩
  · intro js _
    exact ⟨_, spillOf_eq fs lineBuffer _ hlen,
      perm_take_of_drop_eq (randShuffle_perm _ _ _) (randShuffle_drop _ _ _)⟩
  · intro ys hys
    have hylen : ys.length = lineBuffer.length := by
      rw [hys.length_eq, List.length_take, Nat.min_eq_left hlen]
    obtain ⟨js, hjs, hR⟩ := randShuffle_surj lineBuffer.length lineBuffer.buffer
      (ys ++ lineBuffer.buffer.drop lineBuffer.length) hlen
      (by
        have := hys.append_right (lineBuffer.buffer.drop lineBuffer.length)
        rwa [List.take_append_drop] at this)
      (by rw [← hylen, List.drop_left, hylen])
    refine ⟨js, ⟨hjs, ?_⟩, ?_⟩
    · rw [spillOf_eq fs lineBuffer _ hlen, hR, ← hylen, List.take_left]
    · rintro js' ⟨hjs', hsp⟩
      rw [spillOf_eq fs lineBuffer _ hlen] at hsp
      have htake := Option.some.inj hsp
      apply randShuffle_inj lineBuffer.length lineBuffer.buffer js' js hlen hnd hjs' hjs
      rw [hR, ← List.take_append_drop lineBuffer.length
        (randShuffle lineBuffer.length (fun i j b => swapAt b i j) lineBuffer.buffer
          (Rand.ofList js')).1, htake, randShuffle_drop]

/-- C9, at a concrete input: a batch of three distinct records. -/
theorem shuffle_uniform_witness :
    staleBuffer.length ≤ staleBuffer.buffer.length ∧
    (staleBuffer.buffer.take staleBuffer.length).Nodup ∧
    (choiceSeqs 3).map (fun js => spillOf FS.empty staleBuffer (Rand.ofList js)) =
      [some ["b", "c", "a"], some ["c", "b", "a"], some ["c", "a", "b"],
       some ["a", "c", "b"], some ["b", "a", "c"], some ["a", "b", "c"]] ∧
    ((∀ js, isChoiceSeq staleBuffer.length js = true →
      ∃ ys, spillOf FS.empty staleBuffer (Rand.ofList js) = some ys ∧
        ys.Perm (staleBuffer.buffer.take staleBuffer.length)) ∧
    (∀ ys, ys.Perm (staleBuffer.buffer.take staleBuffer.length) →
      ∃! js, isChoiceSeq staleBuffer.length js = true ∧
        spillOf FS.empty staleBuffer (Rand.ofList js) = some ys) ∧
    (∀ js, js ∈ choiceSeqs staleBuffer.length ↔ isChoiceSeq staleBuffer.length js = true) ∧
    (choiceSeqs staleBuffer.length).length = Nat.factorial staleBuffer.length) :=
  ⟨by decide, by decide, by decide,
   shuffle_uniform FS.empty staleBuffer (by decide) (by decide)⟩

/-! ## The merge loop of `main` -/

theorem foldl_remove_next (fs : FS) (chunk : List Nat) :
    (chunk.foldl FS.remove fs).next = fs.next := by
  induction chunk generalizing fs with
  | nil => rfl
  | cons c rest ih => rw [List.foldl_cons, ih]; rfl

theorem foldl_remove_files (fs : FS) (chunk : List Nat) (f : Nat) :
    (chunk.foldl FS.remove fs).files f = if f ∈ chunk then none else fs.files f := by
  induction chunk generalizing fs with
  | nil => simp
  | cons c rest ih =>
    rw [List.foldl_cons, ih]
    by_cases hr : f ∈ rest
    · simp [hr]
    · by_cases hc : f = c
      · simp [hr, hc, FS.remove]
      · simp [hr, hc, FS.remove]

theorem queueLines_congr {fs fs' : FS} {wf : List Nat}
    (h : ∀ f ∈ wf, fs'.files f = fs.files f) : queueLines fs' wf = queueLines fs wf := by
  unfold queueLines
  congr 1
  apply List.map_congr_left
  intro f hf
  simp [FS.lines, h f hf]

/-- One round of the merge loop on a queue that satisfies the invariant. -/
theorem mergeRound_spec (fs : FS) (wf : List Nat) (rng : Rand) (hok : QueueOk fs wf) :
    ∃ (fs' : FS) (rng' : Rand),
      mergeRound fs wf rng = some (fs', wf.drop (min 32 wf.length) ++ [fs.next], rng') ∧
      QueueOk fs' (wf.drop (min 32 wf.length) ++ [fs.next]) ∧
      (queueLines fs' (wf.drop (min 32 wf.length) ++ [fs.next])).Perm (queueLines fs wf) := by
  obtain ⟨hnd, hlt, hex⟩ := hok
  have hs : min 32 wf.length ≤ wf.length := Nat.min_le_right _ _
  generalize hsdef : min 32 wf.length = s at *
  have htake : (wf ++ [fs.next]).take s = wf.take s := List.take_append_of_le_length hs
  have hdrop : (wf ++ [fs.next]).drop s = wf.drop s ++ [fs.next] :=
    List.drop_append_of_le_length hs
  have hne : ∀ f ∈ wf, f ≠ fs.next := fun f hf => Nat.ne_of_lt (hlt f hf)
  have hsrc : ∀ f ∈ wf.take s, (getTempFile fs).2.files f ≠ none := by
    intro f hf
    have hfw := List.mem_of_mem_take hf
    simpa [getTempFile, hne f hfw] using hex f hfw
  obtain ⟨written, rng', -, hm, hperm, -⟩ :=
    merge_spec (getTempFile fs).2 fs.next (wf.take s) rng hsrc
  have hnotin : fs.next ∉ wf.take s := fun h => hne _ (List.mem_of_mem_take h) rfl
  have hdisj : ∀ f ∈ wf.drop s, f ∉ wf.take s := by
    intro f hf ht
    have := hnd
    rw [← List.take_append_drop s wf] at this
    exact (List.nodup_append.1 this).2.2 ht hf
  obtain ⟨fs', hfs'⟩ : ∃ fs' : FS,
      fs' = (wf.take s).foldl FS.remove ((getTempFile fs).2.append fs.next written) := ⟨_, rfl⟩
  have hkeep : ∀ f ∈ wf.drop s, fs'.files f = fs.files f := by
    intro f hf
    rw [hfs', foldl_remove_files, if_neg (hdisj f hf)]
    simp [FS.append, getTempFile, hne f (List.mem_of_mem_drop hf)]
  have hnew : fs'.files fs.next = some written := by
    rw [hfs', foldl_remove_files, if_neg hnotin]
    simp [FS.append, FS.lines, getTempFile]
  refine ⟨fs', rng', ?_, ⟨?_, ?_, ?_⟩, ?_⟩
  · simp only [mergeRound, hsdef]
    rw [show (getTempFile fs).1 = fs.next from rfl, htake, hdrop, hm, hfs']
  · refine List.nodup_append.2 ⟨hnd.sublist (List.drop_sublist _ _), List.nodup_singleton _, ?_⟩
    intro f hf hf'
    rw [List.mem_singleton] at hf'
    exact hne f (List.mem_of_mem_drop hf) hf'
  · intro f hf
    rw [hfs', foldl_remove_next]
    rcases List.mem_append.1 hf with hf | hf
    · have := hlt f (List.mem_of_mem_drop hf)
      simp [FS.append, getTempFile]; omega
    · rw [List.mem_singleton] at hf
      simp [FS.append, getTempFile, hf]
  · intro f hf
    rcases List.mem_append.1 hf with hf | hf
    · rw [hkeep f hf]; exact hex f (List.mem_of_mem_drop hf)
    · rw [List.mem_singleton] at hf
      rw [hf, hnew]; simp
  · have h1 : queueLines fs' (wf.drop s ++ [fs.next]) =
        queueLines fs (wf.drop s) ++ written := by
      unfold queueLines
      rw [List.map_append, List.flatten_append]
      congr 1
      · exact queueLines_congr hkeep
      · simp [FS.lines, hnew]
    have h2 : (wf.take s).map (getTempFile fs).2.lines = (wf.take s).map fs.lines := by
      apply List.map_congr_left
      intro f hf
      simp [FS.lines, getTempFile, hne f (List.mem_of_mem_take hf)]
    rw [h1]
    rw [h2] at hperm
    have h3 : queueLines fs wf = queueLines fs (wf.take s) ++ queueLines fs (wf.drop s) := by
      unfold queueLines
      rw [← List.flatten_append, ← List.map_append, List.take_append_drop]
    rw [h3]
    exact (List.Perm.append_left _ hperm).trans List.perm_append_comm


/-- The merge loop on a non-empty queue that satisfies the invariant: with a
budget of at least the queue length it stops with one file, which holds the
records of the whole queue. -/
theorem mergeRounds_spec (fuel : Nat) (fs : FS) (wf : List Nat) (rng : Rand)
    (hok : QueueOk fs wf) (hpos : 1 ≤ wf.length) (hfuel : wf.length ≤ fuel) :
    ∃ (fs' : FS) (f : Nat) (rng' : Rand) (rounds : Nat),
      mergeRounds fuel fs wf rng = some (fs', [f], rng', rounds) ∧
      QueueOk fs' [f] ∧ (queueLines fs' [f]).Perm (queueLines fs wf) := by
  induction fuel generalizing fs wf rng with
  | zero => omega
  | succ fuel ih =>
    by_cases h1 : wf.length = 1
    · obtain ⟨f, rfl⟩ := List.length_eq_one.1 h1
      exact ⟨fs, f, rng, 0, by simp [mergeRounds], hok, List.Perm.refl _⟩
    · obtain ⟨fs1, rng1, hround, hok1, hperm1⟩ := mergeRound_spec fs wf rng hok
      have hlen1 : (wf.drop (min 32 wf.length) ++ [fs.next]).length =
          wf.length - (min 32 wf.length - 1) := by
        simp only [List.length_append, List.length_drop, List.length_singleton]; omega
      obtain ⟨fs', f, rng', rounds, hloop, hok', hperm'⟩ :=
        ih fs1 (wf.drop (min 32 wf.length) ++ [fs.next]) rng1 hok1 (by rw [hlen1]; omega)
          (by rw [hlen1]; omega)
      refine ⟨fs', f, rng', rounds + 1, ?_, hok', hperm'.trans hperm1⟩
      simp [mergeRounds, h1, hround, hloop]

/-- C5: the chunked merge loop ends with exactly one file.  For every work
queue of at least one file that satisfies the queue invariant, the loop returns
within a budget of `length` iterations with a queue of length one; and whenever
the length is not one, a round is performed with a group of
`min 32 length >= 2` files, it shortens the queue by the group size minus one,
leaves it non-empty and keeps the invariant, so the same holds for the next
round. -/
theorem merge_loop_terminates (fs : FS) (writtenFiles : List Nat) (rng : Rand)
    (hok : QueueOk fs writtenFiles) (hpos : 1 ≤ writtenFiles.length) :
    (∃ (fs' : FS) (writtenFiles' : List Nat) (rng' : Rand) (rounds : Nat),
      mergeRounds writtenFiles.length fs writtenFiles rng =
        some (fs', writtenFiles', rng', rounds) ∧
      writtenFiles'.length = 1) ∧
    (writtenFiles.length ≠ 1 →
      ∃ (fs' : FS) (writtenFiles' : List Nat) (rng' : Rand),
        mergeRound fs writtenFiles rng = some (fs', writtenFiles', rng') ∧
        2 ≤ min 32 writtenFiles.length ∧
        writtenFiles'.length = writtenFiles.length - (min 32 writtenFiles.length - 1) ∧
        1 ≤ writtenFiles'.length ∧
        QueueOk fs' writtenFiles') := by
  constructor
  · obtain ⟨fs', f, rng', rounds, hloop, -, -⟩ :=
      mergeRounds_spec writtenFiles.length fs writtenFiles rng hok hpos (Nat.le_refl _)
    exact ⟨fs', [f], rng', rounds, hloop, rfl⟩
  · intro h1
    obtain ⟨fs1, rng1, hround, hok1, -⟩ := mergeRound_spec fs writtenFiles rng hok
    refine ⟨fs1, _, rng1, hround, by omega, ?_, ?_, hok1⟩
    · simp only [List.length_append, List.length_drop, List.length_singleton]; omega
    · simp

/-- C6: group shape of a merge round.  The sources passed to `merge` are the
first `min 32 length` files of the queue as it was before the round, so at most
32 of them and never the round's own output file; after the round the queue is
the remaining files in their order followed by the new file. -/
theorem merge_round_group_shape (fs : FS) (writtenFiles : List Nat) (rng : Rand)
    (hok : QueueOk fs writtenFiles) :
    mergeRound fs writtenFiles rng =
      (merge (getTempFile fs).2 (getTempFile fs).1
        (writtenFiles.take (min 32 writtenFiles.length)) rng).map
        (fun r => ((writtenFiles.take (min 32 writtenFiles.length)).foldl FS.remove r.1,
          writtenFiles.drop (min 32 writtenFiles.length) ++ [(getTempFile fs).1], r.2)) ∧
    (writtenFiles.take (min 32 writtenFiles.length)).length = min 32 writtenFiles.length ∧
    (writtenFiles.take (min 32 writtenFiles.length)).length ≤ 32 ∧
    (getTempFile fs).1 ∉ writtenFiles.take (min 32 writtenFiles.length) ∧
    ∃ (fs' : FS) (rng' : Rand),
      mergeRound fs writtenFiles rng =
        some (fs', writtenFiles.drop (min 32 writtenFiles.length) ++ [(getTempFile fs).1], rng') := by
  have hs : min 32 writtenFiles.length ≤ writtenFiles.length := Nat.min_le_right _ _
  refine ⟨?_, ?_, ?_, ?_, ?_⟩
  · simp only [mergeRound]
    rw [List.take_append_of_le_length hs, List.drop_append_of_le_length hs]
    cases merge (getTempFile fs).2 (getTempFile fs).1
      (writtenFiles.take (min 32 writtenFiles.length)) rng <;> rfl
  · simp
  · simp
  · intro h
    exact Nat.lt_irrefl _ (hok.2.1 _ (List.mem_of_mem_take h))
  · obtain ⟨fs1, rng1, hround, -, -⟩ := mergeRound_spec fs writtenFiles rng hok
    exact ⟨fs1, rng1, hround⟩


/-- C5, at a concrete input: a queue of three files is merged in one round. -/
theorem merge_loop_terminates_witness :
    QueueOk (FS.ofList [["a"], ["b"], ["c"]]) [0, 1, 2] ∧ 1 ≤ [0, 1, 2].length ∧
    (mergeRounds 3 (FS.ofList [["a"], ["b"], ["c"]]) [0, 1, 2] (Rand.ofList [5, 9, 7])).map
      (fun r => (r.2.1, r.1.lines 3, r.2.2.2)) = some ([3], ["b", "c", "a"], 1) ∧
    ((∃ (fs' : FS) (writtenFiles' : List Nat) (rng' : Rand) (rounds : Nat),
      mergeRounds [0, 1, 2].length (FS.ofList [["a"], ["b"], ["c"]]) [0, 1, 2]
          (Rand.ofList [5, 9, 7]) = some (fs', writtenFiles', rng', rounds) ∧
      writtenFiles'.length = 1) ∧
    ([0, 1, 2].length ≠ 1 →
      ∃ (fs' : FS) (writtenFiles' : List Nat) (rng' : Rand),
        mergeRound (FS.ofList [["a"], ["b"], ["c"]]) [0, 1, 2] (Rand.ofList [5, 9, 7]) =
          some (fs', writtenFiles', rng') ∧
        2 ≤ min 32 [0, 1, 2].length ∧
        writtenFiles'.length = [0, 1, 2].length - (min 32 [0, 1, 2].length - 1) ∧
        1 ≤ writtenFiles'.length ∧
        QueueOk fs' writtenFiles')) :=
  ⟨⟨by decide, by decide, by decide⟩, by decide, by decide,
   merge_loop_terminates (FS.ofList [["a"], ["b"], ["c"]]) [0, 1, 2] (Rand.ofList [5, 9, 7])
     ⟨by decide, by decide, by decide⟩ (by decide)⟩

/-- C6, at a concrete input: a queue of two files. -/
theorem merge_round_group_shape_witness :
    QueueOk (FS.ofList [["a"], ["b", "c"]]) [1, 0] ∧
    (mergeRound (FS.ofList [["a"], ["b", "c"]]) [1, 0] (Rand.ofList [5, 9, 7])).map
      (fun r => (r.2.1, r.1.files 0, r.1.files 1, r.1.files 2)) =
      some ([2], none, none, some ["a", "b", "c"]) ∧
    (mergeRound (FS.ofList [["a"], ["b", "c"]]) [1, 0] (Rand.ofList [5, 9, 7]) =
      (merge (getTempFile (FS.ofList [["a"], ["b", "c"]])).2
        (getTempFile (FS.ofList [["a"], ["b", "c"]])).1
        ([1, 0].take (min 32 [1, 0].length)) (Rand.ofList [5, 9, 7])).map
        (fun r => (([1, 0].take (min 32 [1, 0].length)).foldl FS.remove r.1,
          [1, 0].drop (min 32 [1, 0].length) ++ [(getTempFile (FS.ofList [["a"], ["b", "c"]])).1],
          r.2)) ∧
    ([1, 0].take (min 32 [1, 0].length)).length = min 32 [1, 0].length ∧
    ([1, 0].take (min 32 [1, 0].length)).length ≤ 32 ∧
    (getTempFile (FS.ofList [["a"], ["b", "c"]])).1 ∉ [1, 0].take (min 32 [1, 0].length) ∧
    ∃ (fs' : FS) (rng' : Rand),
      mergeRound (FS.ofList [["a"], ["b", "c"]]) [1, 0] (Rand.ofList [5, 9, 7]) =
        some (fs', [1, 0].drop (min 32 [1, 0].length) ++
          [(getTempFile (FS.ofList [["a"], ["b", "c"]])).1], rng')) :=
  ⟨⟨by decide, by decide, by decide⟩, by decide,
   merge_round_group_shape (FS.ofList [["a"], ["b", "c"]]) [1, 0] (Rand.ofList [5, 9, 7])
     ⟨by decide, by decide, by decide⟩⟩

/-! ## The batching loop and the whole run -/

theorem livePairs_of_exhausted {scanners : List rahScanner}
    (h : ∀ s ∈ scanners, s.scanner = none) : livePairs scanners = [] := by
  induction scanners with
  | nil => rfl
  | cons s rest ih =>
    simp [livePairs, List.filterMap_cons, h s (List.mem_cons_self _ _)]
    intro t ht
    exact h t (List.mem_cons_of_mem _ ht)

theorem livePairs_set_none {scanners : List rahScanner} {k : Nat} {l : rahScanner} {sc : Scanner}
    (hk : scanners[k]? = some l) (hsc : l.scanner = some sc) :
    (livePairs scanners).Perm ((sc.text, l.rnd) :: livePairs (scanners.set k ⟨none, l.rnd⟩)) := by
  induction scanners generalizing k with
  | nil => simp at hk
  | cons s rest ih =>
    cases k with
    | zero =>
      simp at hk; subst hk
      simp [livePairs, List.filterMap_cons, hsc]
    | succ k =>
      have h := ih (k := k) (by simpa using hk)
      cases hs : s.scanner with
      | none => simpa [livePairs, List.filterMap_cons, hs] using h
      | some sc' =>
        simp only [livePairs, List.set_cons_succ, List.filterMap_cons, hs, Option.map_some'] at h ⊢
        exact (h.cons _).trans (List.Perm.swap _ _ _)

theorem mem_livePairs_le {scanners : List rahScanner} {b : Nat}
    (h : ∀ s ∈ scanners, s.scanner ≠ none → s.rnd ≤ b) :
    ∀ q ∈ livePairs scanners, q.2 ≤ b := by
  intro q hq
  simp only [livePairs, List.mem_filterMap] at hq
  obtain ⟨s, hs, hq⟩ := hq
  cases hsc : s.scanner with
  | none => simp [hsc] at hq
  | some sc =>
    simp [hsc] at hq
    subst hq
    exact h s hs (by simp [hsc])

/-- The output loop of `merge` when no cursor has a record left to read and the
keys of the live cursors are pairwise distinct: it draws nothing and writes the
current records in the order of strictly decreasing keys. -/
theorem mergeLoop_single (fuel : Nat) (scanners : List rahScanner) (rng : Rand)
    (written : List String)
    (hrest : ∀ s ∈ scanners, ∀ sc, s.scanner = some sc → sc.rest = [])
    (hnd : ((livePairs scanners).map Prod.snd).Nodup)
    (hfuel : pendingCount scanners < fuel) :
    ∃ Q : List (String × Nat),
      mergeLoop fuel scanners rng written = some (written ++ Q.map Prod.fst, rng) ∧
      Q.Perm (livePairs scanners) ∧ Q.Pairwise (fun p q => q.2 < p.2) := by
  induction fuel generalizing scanners written with
  | zero => omega
  | succ fuel ih =>
    cases hl : largestScanner scanners with
    | none =>
      have hall := largestScanner_eq_none hl
      exact ⟨[], by simp [mergeLoop, mergeStep, hl], by rw [livePairs_of_exhausted hall],
        List.Pairwise.nil⟩
    | some kl =>
      obtain ⟨k, l⟩ := kl
      obtain ⟨h1, h2, h3, -⟩ := largestScanner_eq_some hl
      cases hsc : l.scanner with
      | none => exact absurd hsc h2
      | some sc =>
        have hr : sc.rest = [] := hrest l (List.getElem?_mem h1) sc hsc
        have hp := livePairs_set_none h1 hsc
        have hnd' := (hp.map Prod.snd).nodup_iff.1 hnd
        simp only [List.map_cons, List.nodup_cons] at hnd'
        obtain ⟨Q, hloop, hQ, hsorted⟩ := ih (scanners.set k ⟨none, l.rnd⟩) (written ++ [sc.text])
          (by
            intro s hs sc' hsc'
            rcases List.mem_or_eq_of_mem_set hs with hs | hs
            · exact hrest s hs sc' hsc'
            · subst hs; simp at hsc')
          hnd'.2 (by
            have := @pendingCount_set scanners k l ⟨none, l.rnd⟩ h1
              (by simp [rahScanner.pending, hsc, hr])
            omega)
        refine ⟨(sc.text, l.rnd) :: Q, ?_, (hQ.cons _).trans hp.symm, ?_⟩
        · simp [mergeLoop, mergeStep, hl, hsc, rahScanner.read, Scanner.scan, hr, hloop]
        · refine List.Pairwise.cons ?_ hsorted
          intro q hq
          have hq' := hQ.subset hq
          have hle := mem_livePairs_le h3 q (hp.symm.subset (List.mem_cons_of_mem _ hq'))
          have hne : q.2 ≠ l.rnd := by
            intro h
            have hm := List.mem_map_of_mem Prod.snd hq'
            rw [h] at hm
            exact hnd'.1 hm
          show q.2 < l.rnd
          omega


theorem openScanners_single (fs : FS) (recs : List (Nat × String × Nat)) (more : List Nat)
    (h : ∀ r ∈ recs, fs.files r.1 = some [r.2.1]) :
    openScanners fs (recs.map fun r => r.1) (Rand.ofList (recs.map (fun r => r.2.2) ++ more)) =
      some (recs.map fun r => ⟨some ⟨r.2.1, []⟩, r.2.2 % 2 ^ 63⟩, Rand.ofList more) := by
  induction recs with
  | nil => rfl
  | cons r rest ih =>
    have hr := h r (List.mem_cons_self _ _)
    have ih' := ih fun q hq => h q (List.mem_cons_of_mem _ hq)
    simp only [List.map_cons, List.cons_append, openScanners, hr, rahScanner.read, newScanner,
      Scanner.scan, randInt, Rand.peek, Rand.tail, Rand.ofList, List.headD_cons, List.tail_cons]
    simp only [Rand.ofList] at ih'
    rw [ih']

theorem livePairs_single (recs : List (Nat × String × Nat)) :
    livePairs (recs.map fun r => ⟨some ⟨r.2.1, []⟩, r.2.2 % 2 ^ 63⟩) =
      recs.map fun r => (r.2.1, r.2.2 % 2 ^ 63) := by
  induction recs with
  | nil => rfl
  | cons r rest ih =>
    simp only [livePairs, List.map_cons, List.filterMap_cons, Option.map_some'] at ih ⊢
    rw [ih]

/-- `merge` on files of one record each, under pairwise distinct keys: the
records are written in the order of strictly decreasing keys. -/
theorem merge_single (fs : FS) (dest : Nat) (recs : List (Nat × String × Nat))
    (h : ∀ r ∈ recs, fs.files r.1 = some [r.2.1])
    (hnd : (recs.map fun r => r.2.2 % 2 ^ 63).Nodup) :
    ∃ Q : List (String × Nat),
      merge fs dest (recs.map fun r => r.1) (Rand.ofList (recs.map fun r => r.2.2)) =
        some (fs.append dest (Q.map Prod.fst), Rand.ofList []) ∧
      Q.Perm (recs.map fun r => (r.2.1, r.2.2 % 2 ^ 63)) ∧
      Q.Pairwise (fun p q => q.2 < p.2) := by
  have hopen := openScanners_single fs recs [] h
  rw [List.append_nil] at hopen
  obtain ⟨Q, hloop, hQ, hsorted⟩ := mergeLoop_single
    (pendingCount (recs.map fun r => ⟨some ⟨r.2.1, []⟩, r.2.2 % 2 ^ 63⟩) + 1)
    (recs.map fun r => ⟨some ⟨r.2.1, []⟩, r.2.2 % 2 ^ 63⟩) (Rand.ofList []) []
    (by
      intro s hs sc hsc
      obtain ⟨r, -, rfl⟩ := List.mem_map.1 hs
      simp at hsc
      rw [← hsc])
    (by rw [livePairs_single, List.map_map]; exact hnd)
    (Nat.lt_succ_self _)
  refine ⟨Q, ?_, livePairs_single recs ▸ hQ, hsorted⟩
  simp only [merge, hopen, hloop, List.nil_append]


theorem range_eq_ofFn_val (n : Nat) : List.range n = List.ofFn fun i : Fin n => i.val := by
  rw [List.ofFn_eq_map, List.map_coe_finRange]

/-- `merge` on `singleRecordFiles x` under injective keys below `2 ^ 63`. -/
theorem mergedLines_single {n m : Nat} (hm : m ≤ 2 ^ 63) (x : Fin n → String)
    (k : Fin n → Fin m) (hk : Function.Injective k) :
    ∃ Q : List (String × Nat),
      mergedLines (singleRecordFiles x) n (List.range n) (keySource k) = some (Q.map Prod.fst) ∧
      Q.Perm (List.ofFn fun i => (x i, (k i).val)) ∧
      Q.Pairwise (fun p q => q.2 < p.2) := by
  have hmod : ∀ i, (k i).val % 2 ^ 63 = (k i).val := fun i =>
    Nat.mod_eq_of_lt (Nat.lt_of_lt_of_le (k i).isLt hm)
  obtain ⟨Q, hmerge, hQ, hsorted⟩ := merge_single (singleRecordFiles x) n
    (List.ofFn fun i : Fin n => (i.val, x i, (k i).val))
    (by
      intro r hr
      obtain ⟨i, rfl⟩ := (List.mem_ofFn _ _).1 hr
      simp [singleRecordFiles, FS.ofList, List.ofFnNthVal])
    (by
      rw [List.map_ofFn]
      refine List.nodup_ofFn.2 ?_
      intro i j hij
      simp only [Function.comp_apply, hmod] at hij
      exact hk (Fin.ext hij))
  simp only [List.map_ofFn, Function.comp_def, hmod] at hmerge hQ
  refine ⟨Q, ?_, hQ, hsorted⟩
  rw [mergedLines, range_eq_ofFn_val, keySource, hmerge]
  simp [FS.append, FS.lines, singleRecordFiles, FS.ofList, List.ofFnNthVal]


theorem mergedLines_single_iff {n m : Nat} (hm : m ≤ 2 ^ 63) (x : Fin n → String)
    (hx : Function.Injective x) (k : Fin n → Fin m) (τ : Equiv.Perm (Fin n)) :
    (Function.Injective k ∧
      mergedLines (singleRecordFiles x) n (List.range n) (keySource k) =
        some (List.ofFn fun j => x (τ j))) ↔ StrictAnti fun j => k (τ j) := by
  have hsortedτ : StrictAnti (fun j => k (τ j)) →
      (List.ofFn fun j => (x (τ j), (k (τ j)).val)).Pairwise (fun p q => q.2 < p.2) := by
    intro h
    rw [List.pairwise_ofFn]
    intro i j hij
    exact h hij
  have hpermτ : (List.ofFn fun j => (x (τ j), (k (τ j)).val)).Perm
      (List.ofFn fun i => (x i, (k i).val)) :=
    Equiv.Perm.ofFn_comp_perm τ fun i => (x i, (k i).val)
  haveI : IsAntisymm (String × Nat) (fun p q => q.2 < p.2) :=
    ⟨fun a b h1 h2 => absurd h1 (Nat.lt_asymm h2)⟩
  constructor
  · rintro ⟨hk, hout⟩
    obtain ⟨Q, hQout, hQ, hsorted⟩ := mergedLines_single hm x k hk
    rw [hQout] at hout
    have hfst := Option.some.inj hout
    have hlen : Q.length = n := by
      have := congrArg List.length hfst
      simpa using this
    have hQeq : Q = List.ofFn fun j => (x (τ j), (k (τ j)).val) := by
      apply List.ext_getElem (by simp [hlen])
      intro j h1 h2
      have hj : j < n := by omega
      have hmem : Q[j] ∈ List.ofFn fun i => (x i, (k i).val) := hQ.subset (List.getElem_mem _)
      obtain ⟨i, hi⟩ := (List.mem_ofFn _ _).1 hmem
      have hf : Q[j].1 = x (τ ⟨j, hj⟩) := by
        have := congrArg (fun l => l[j]?) hfst
        simp only [List.getElem?_map, List.getElem?_eq_getElem h1, Option.map_some'] at this
        rw [List.getElem?_eq_getElem (by simpa using hj)] at this
        simpa using this
      rw [← hi] at hf
      have hiτ : i = τ ⟨j, hj⟩ := hx hf
      rw [← hi, hiτ]
      simp
    rw [hQeq, List.pairwise_ofFn] at hsorted
    intro i j hij
    exact Fin.lt_def.2 (hsorted hij)
  · intro h
    have hinj : Function.Injective k := by
      have h1 : Function.Injective (fun j => k (τ j)) := h.injective
      intro a b hab
      have := @h1 (τ.symm a) (τ.symm b) (by simpa using hab)
      simpa using this
    obtain ⟨Q, hQout, hQ, hsorted⟩ := mergedLines_single hm x k hinj
    have hQeq : Q = List.ofFn fun j => (x (τ j), (k (τ j)).val) :=
      List.eq_of_perm_of_sorted (hQ.trans hpermτ.symm) hsorted (hsortedτ h)
    refine ⟨hinj, ?_⟩
    rw [hQout, hQeq, List.map_ofFn]
    rfl

/-- C10, amended: `merge` is uniform on files of one record each.  For `n`
files holding pairwise distinct single records and keys drawn from a range of
`m <= 2 ^ 63` values, any two orders of the `n` records are written under
equally many tie-free key sequences. -/
theorem merge_uniform_on_single_records {n m : Nat} (hm : m ≤ 2 ^ 63) (x : Fin n → String)
    (hx : Function.Injective x) (τ τ' : Equiv.Perm (Fin n)) :
    producedBy m n (singleRecordFiles x) n (List.range n) (List.ofFn fun j => x (τ j)) =
      producedBy m n (singleRecordFiles x) n (List.range n) (List.ofFn fun j => x (τ' j)) := by
  have key : ∀ σ : Equiv.Perm (Fin n),
      producedBy m n (singleRecordFiles x) n (List.range n) (List.ofFn fun j => x (σ j)) =
        (Finset.univ.filter fun g : Fin n → Fin m => StrictAnti g).card := by
    intro σ
    unfold producedBy
    refine Finset.card_bij (fun k _ => fun j => k (σ j)) ?_ ?_ ?_
    · intro k hk
      simp only [Finset.mem_filter, Finset.mem_univ, true_and] at hk ⊢
      exact (mergedLines_single_iff hm x hx k σ).1 hk
    · intro k _ k' _ hkk
      funext i
      have := congrFun hkk (σ.symm i)
      simpa using this
    · intro g hg
      simp only [Finset.mem_filter, Finset.mem_univ, true_and] at hg
      refine ⟨fun i => g (σ.symm i), ?_, by funext j; simp⟩
      simp only [Finset.mem_filter, Finset.mem_univ, true_and]
      refine (mergedLines_single_iff hm x hx _ σ).2 ?_
      simpa using hg
  rw [key τ, key τ']


theorem mergedLines_unequal_list (a b c : Nat) (ha : a < 2 ^ 63) (hb : b < 2 ^ 63)
    (hc : c < 2 ^ 63) :
    mergedLines unequalFiles 2 [0, 1] (Rand.ofList [a, b, c]) =
      some (if a < b then (if a < c then ["b1", "b2", "a"] else ["b1", "a", "b2"])
        else ["a", "b1", "b2"]) := by
  have ha' : a % 9223372036854775808 = a := Nat.mod_eq_of_lt (by omega)
  have hb' : b % 9223372036854775808 = b := Nat.mod_eq_of_lt (by omega)
  have hc' : c % 9223372036854775808 = c := Nat.mod_eq_of_lt (by omega)
  by_cases h1 : a < b
  · by_cases h2 : a < c
    · simp [mergedLines, merge, openScanners, unequalFiles, FS.ofList, rahScanner.read, newScanner,
        Scanner.scan, randInt, Rand.peek, Rand.tail, Rand.ofList, pendingCount,
        rahScanner.pending, mergeLoop, mergeStep, largestScanner, largestFrom, FS.append,
        FS.lines, ha', hb', hc', h1, h2]
    · simp [mergedLines, merge, openScanners, unequalFiles, FS.ofList, rahScanner.read, newScanner,
        Scanner.scan, randInt, Rand.peek, Rand.tail, Rand.ofList, pendingCount,
        rahScanner.pending, mergeLoop, mergeStep, largestScanner, largestFrom, FS.append,
        FS.lines, ha', hb', hc', h1, h2]
  · simp [mergedLines, merge, openScanners, unequalFiles, FS.ofList, rahScanner.read, newScanner,
      Scanner.scan, randInt, Rand.peek, Rand.tail, Rand.ofList, pendingCount,
      rahScanner.pending, mergeLoop, mergeStep, largestScanner, largestFrom, FS.append,
      FS.lines, ha', hb', hc', h1]


theorem mergedLines_unequal {m : Nat} (hm : m ≤ 2 ^ 63) (k : Fin 3 → Fin m) :
    mergedLines unequalFiles 2 [0, 1] (keySource k) =
      some (if k 0 < k 1 then (if k 0 < k 2 then ["b1", "b2", "a"] else ["b1", "a", "b2"])
        else ["a", "b1", "b2"]) := by
  have h := mergedLines_unequal_list (k 0).val (k 1).val (k 2).val
    (Nat.lt_of_lt_of_le (k 0).isLt hm) (Nat.lt_of_lt_of_le (k 1).isLt hm)
    (Nat.lt_of_lt_of_le (k 2).isLt hm)
  have hk : keySource k = Rand.ofList [(k 0).val, (k 1).val, (k 2).val] := by
    simp [keySource, List.ofFn_succ]
  rw [hk, h]
  simp only [Fin.lt_def]

theorem injective_fin3 {m : Nat} (k : Fin 3 → Fin m) :
    Function.Injective k ↔ (k 0 ≠ k 1 ∧ k 0 ≠ k 2 ∧ k 1 ≠ k 2) := by
  constructor
  · intro h
    exact ⟨fun e => by simpa using h e, fun e => by simpa using h e, fun e => by simpa using h e⟩
  · rintro ⟨h01, h02, h12⟩ i j hij
    fin_cases i <;> fin_cases j <;> simp_all

theorem producedBy_unequal_lt {m : Nat} (h3 : 3 ≤ m) (hm : m ≤ 2 ^ 63) :
    producedBy m 3 unequalFiles 2 [0, 1] ["b1", "a", "b2"] <
      producedBy m 3 unequalFiles 2 [0, 1] ["a", "b1", "b2"] := by
  obtain ⟨A, hA⟩ : ∃ A : Finset (Fin 3 → Fin m), ∀ k, k ∈ A ↔
      (Function.Injective k ∧ ¬ k 0 < k 1) :=
    ⟨Finset.univ.filter fun k => Function.Injective k ∧ ¬ k 0 < k 1, fun k => by simp⟩
  obtain ⟨B, hB⟩ : ∃ B : Finset (Fin 3 → Fin m), ∀ k, k ∈ B ↔
      (Function.Injective k ∧ k 0 < k 1 ∧ ¬ k 0 < k 2) :=
    ⟨Finset.univ.filter fun k => Function.Injective k ∧ k 0 < k 1 ∧ ¬ k 0 < k 2,
      fun k => by simp⟩
  have hAc : producedBy m 3 unequalFiles 2 [0, 1] ["a", "b1", "b2"] = A.card := by
    unfold producedBy
    congr 1
    ext k
    rw [hA, Finset.mem_filter, mergedLines_unequal hm k]
    by_cases h1 : k 0 < k 1 <;> by_cases h2 : k 0 < k 2 <;> simp [h1, h2]
  have hBc : producedBy m 3 unequalFiles 2 [0, 1] ["b1", "a", "b2"] = B.card := by
    unfold producedBy
    congr 1
    ext k
    rw [hB, Finset.mem_filter, mergedLines_unequal hm k]
    by_cases h1 : k 0 < k 1 <;> by_cases h2 : k 0 < k 2 <;> simp [h1, h2]
  rw [hAc, hBc]
  obtain ⟨kstar, hstar⟩ : ∃ kstar : Fin 3 → Fin m,
      (kstar 0).val = 2 ∧ (kstar 1).val = 0 ∧ (kstar 2).val = 1 :=
    ⟨![⟨2, by omega⟩, ⟨0, by omega⟩, ⟨1, by omega⟩], rfl, rfl, rfl⟩
  have hstarA : kstar ∈ A := by
    rw [hA, injective_fin3]
    simp only [Fin.lt_def, ne_eq, Fin.ext_iff]
    omega
  have e0 : (Equiv.swap (0 : Fin 3) 1) 0 = 1 := by decide
  have e1 : (Equiv.swap (0 : Fin 3) 1) 1 = 0 := by decide
  have e2 : (Equiv.swap (0 : Fin 3) 1) 2 = 2 := by decide
  have hsub : B.image (fun k => fun i => k (Equiv.swap 0 1 i)) ⊆ A.erase kstar := by
    intro k' hk'
    obtain ⟨k, hk, rfl⟩ := Finset.mem_image.1 hk'
    rw [hB, injective_fin3] at hk
    simp only [Fin.lt_def, ne_eq, Fin.ext_iff] at hk
    rw [Finset.mem_erase, hA, injective_fin3]
    simp only [Fin.lt_def, ne_eq, Fin.ext_iff, e0, e1, e2]
    refine ⟨?_, ⟨by omega, by omega, by omega⟩, by omega⟩
    intro hks
    have h0 := congrFun hks 0
    have h1 := congrFun hks 1
    have h2 := congrFun hks 2
    simp only [e0, e1, e2] at h0 h1 h2
    have := hstar
    rw [← h0, ← h1, ← h2] at this
    omega
  have hcard : (B.image (fun k => fun i => k (Equiv.swap 0 1 i))).card = B.card := by
    apply Finset.card_image_of_injective
    intro k k' hkk
    funext i
    have := congrFun hkk (Equiv.swap 0 1 i)
    simpa using this
  have hle := Finset.card_le_card hsub
  have her := Finset.card_erase_of_mem hstarA
  have hpos : 0 < A.card := Finset.card_pos.2 ⟨kstar, hstarA⟩
  rw [hcard, her] at hle
  exact Nat.lt_of_le_of_lt hle (Nat.sub_lt hpos Nat.one_pos)

/-- C10, counterexample: one file with the record `a` and one with `b1, b2`.
Over the key range of `rand.Int` the interleaving `b1, a, b2` is written under
fewer tie-free key sequences than `a, b1, b2`; over a range of three keys the
three interleavings are written under 3, 1 and 2 of the 6 tie-free sequences. -/
theorem merge_not_uniform_on_unequal_files :
    producedBy (2 ^ 63) 3 unequalFiles 2 [0, 1] ["b1", "a", "b2"] <
      producedBy (2 ^ 63) 3 unequalFiles 2 [0, 1] ["a", "b1", "b2"] ∧
    producedBy 3 3 unequalFiles 2 [0, 1] ["a", "b1", "b2"] = 3 ∧
    producedBy 3 3 unequalFiles 2 [0, 1] ["b1", "a", "b2"] = 1 ∧
    producedBy 3 3 unequalFiles 2 [0, 1] ["b1", "b2", "a"] = 2 :=
  ⟨producedBy_unequal_lt (by norm_num) (Nat.le_refl _), by decide, by decide, by decide⟩


/-- C10, amended, at a concrete input: two files, keys from a range of three. -/
theorem merge_uniform_on_single_records_witness :
    3 ≤ 2 ^ 63 ∧ Function.Injective ![("a" : String), "b"] ∧
    producedBy 3 2 (singleRecordFiles ![("a" : String), "b"]) 2 (List.range 2)
        (List.ofFn fun j => ![("a" : String), "b"] ((Equiv.refl (Fin 2)) j)) =
      producedBy 3 2 (singleRecordFiles ![("a" : String), "b"]) 2 (List.range 2)
        (List.ofFn fun j => ![("a" : String), "b"] ((Equiv.swap (0 : Fin 2) 1) j)) :=
  ⟨by norm_num, by decide,
   merge_uniform_on_single_records (by norm_num) ![("a" : String), "b"] (by decide)
     (Equiv.refl (Fin 2)) (Equiv.swap 0 1)⟩

/-! ## Batches and rounds of a whole run -/

/-- The merge loop counts `(length + 29) / 31` rounds. -/
theorem mergeRounds_count (fuel : Nat) (fs : FS) (wf : List Nat) (rng : Rand)
    (hok : QueueOk fs wf) (hpos : 1 ≤ wf.length) (hfuel : wf.length ≤ fuel) :
    ∃ (fs' : FS) (f : Nat) (rng' : Rand),
      mergeRounds fuel fs wf rng = some (fs', [f], rng', (wf.length + 29) / 31) ∧
      QueueOk fs' [f] := by
  induction fuel generalizing fs wf rng with
  | zero => omega
  | succ fuel ih =>
    by_cases h1 : wf.length = 1
    · obtain ⟨f, rfl⟩ := List.length_eq_one.1 h1
      exact ⟨fs, f, rng, by simp [mergeRounds], hok⟩
    · obtain ⟨fs1, rng1, hround, hok1, -⟩ := mergeRound_spec fs wf rng hok
      have hlen1 : (wf.drop (min 32 wf.length) ++ [fs.next]).length =
          wf.length - (min 32 wf.length - 1) := by
        simp only [List.length_append, List.length_drop, List.length_singleton]; omega
      obtain ⟨fs', f, rng', hloop, hok'⟩ :=
        ih fs1 (wf.drop (min 32 wf.length) ++ [fs.next]) rng1 hok1 (by rw [hlen1]; omega)
          (by rw [hlen1]; omega)
      refine ⟨fs', f, rng', ?_, hok'⟩
      have hr : (wf.length - (min 32 wf.length - 1) + 29) / 31 + 1 = (wf.length + 29) / 31 := by
        omega
      rw [hlen1] at hloop
      simp [mergeRounds, h1, hround, hloop, hr]

/-- C11: empty-input law.  On the empty input the first `fillBuffer` reports no
batch, the batching loop ends with an empty work queue and an empty file system,
and `main` returns normally, having created no file, performed no merge round
and written nothing to the output; it returns before the queue is indexed. -/
theorem main_empty_input (rng : Rand) :
    fillBuffer (newScanner []) ⟨List.replicate maxLines "", 0⟩ =
      some (false, newScanner [], ⟨List.replicate maxLines "", 0⟩) ∧
    batches 1 (newScanner []) ⟨List.replicate maxLines "", 0⟩ FS.empty [] rng =
      some (FS.empty, [], rng) ∧
    main [] rng = some { stdout := [], spills := 0, rounds := 0, fs := FS.empty } := by
  have hfill : fillBuffer (newScanner []) ⟨List.replicate maxLines "", 0⟩ =
      some (false, newScanner [], ⟨List.replicate maxLines "", 0⟩) := rfl
  have hb : batches 1 (newScanner []) ⟨List.replicate maxLines "", 0⟩ FS.empty [] rng =
      some (FS.empty, [], rng) := by
    simp only [batches, hfill]
  refine ⟨hfill, hb, ?_⟩
  have h1 : ([] : List String).length + 1 = 1 := rfl
  simp only [main, h1, hb, List.length_nil, if_true]

/-- C14, amended: the number of merge rounds is linear in the number of files.
On a queue of `n >= 1` files that satisfies the queue invariant the loop performs
exactly `(n + 29) / 31` rounds, the ceiling of `(n - 1) / 31`, so
`n <= 31 * rounds + 1` and `31 * rounds <= n + 29`. -/
theorem merge_rounds_linear (fs : FS) (writtenFiles : List Nat) (rng : Rand)
    (hok : QueueOk fs writtenFiles) (hpos : 1 ≤ writtenFiles.length) :
    ∃ (fs' : FS) (writtenFiles' : List Nat) (rng' : Rand) (rounds : Nat),
      mergeRounds writtenFiles.length fs writtenFiles rng =
        some (fs', writtenFiles', rng', rounds) ∧
      rounds = (writtenFiles.length + 29) / 31 ∧
      writtenFiles.length ≤ 31 * rounds + 1 ∧ 31 * rounds ≤ writtenFiles.length + 29 := by
  obtain ⟨fs', f, rng', hloop, -⟩ :=
    mergeRounds_count writtenFiles.length fs writtenFiles rng hok hpos (Nat.le_refl _)
  refine ⟨fs', [f], rng', _, hloop, rfl, ?_, ?_⟩ <;> omega

theorem queueOk_range (n : Nat) : QueueOk (FS.ofList (List.replicate n [])) (List.range n) := by
  refine ⟨List.nodup_range n, fun f hf => ?_, fun f hf => ?_⟩
  · simpa [FS.ofList] using hf
  · have hf' : f < n := List.mem_range.1 hf
    simp [FS.ofList, hf']

theorem pow_bound (c : Nat) : c * (1 + (c + 1)) < (32 ^ (c + 1) + 29) / 31 := by
  have h2 : c + 1 ≤ 2 ^ c := Nat.lt_two_pow c
  have h4 : (c + 1) * (c + 1) ≤ 4 ^ c := by
    have : (4 : Nat) ^ c = 2 ^ c * 2 ^ c := by
      rw [← Nat.mul_pow]
    rw [this]
    exact Nat.mul_le_mul h2 h2
  have h32 : 4 ^ c ≤ 32 ^ c := Nat.pow_le_pow_left (by norm_num) c
  have hdiv : 32 ^ c ≤ (32 ^ (c + 1) + 29) / 31 := by
    rw [Nat.le_div_iff_mul_le (by norm_num), pow_succ]
    omega
  have : c * (1 + (c + 1)) < (c + 1) * (c + 1) := by nlinarith
  omega

/-- C14, counterexample: no constant `c` bounds the number of merge rounds on
`n` files by `c * (1 + log_32 n)`; on a queue of `32 ^ (c + 1)` files the loop
performs more than `c * (c + 2)` rounds. -/
theorem merge_rounds_not_logarithmic :
    ¬ ∃ c : Nat, ∀ (fs : FS) (writtenFiles : List Nat) (rng : Rand),
      QueueOk fs writtenFiles → 1 ≤ writtenFiles.length →
      ∃ (fs' : FS) (writtenFiles' : List Nat) (rng' : Rand) (rounds : Nat),
        mergeRounds writtenFiles.length fs writtenFiles rng =
          some (fs', writtenFiles', rng', rounds) ∧
        rounds ≤ c * (1 + Nat.log 32 writtenFiles.length) := by
  rintro ⟨c, h⟩
  have hpos : 1 ≤ (List.range (32 ^ (c + 1))).length := by
    rw [List.length_range]; exact Nat.one_le_pow _ _ (by norm_num)
  obtain ⟨fs', wf', rng', rounds, hloop, hle⟩ :=
    h _ (List.range (32 ^ (c + 1))) (Rand.ofList []) (queueOk_range _) hpos
  obtain ⟨fs2, f, rng2, hloop2, -⟩ :=
    mergeRounds_count _ _ (List.range (32 ^ (c + 1))) (Rand.ofList []) (queueOk_range _) hpos
      (Nat.le_refl _)
  rw [hloop2] at hloop
  simp only [Option.some.injEq, Prod.mk.injEq] at hloop
  rw [List.length_range, Nat.log_pow (by norm_num)] at hle
  rw [List.length_range] at hloop
  have := pow_bound c
  omega

/-- C14, amended, at a concrete input: a queue of 64 files takes 3 rounds. -/
theorem merge_rounds_linear_witness :
    QueueOk (FS.ofList (List.replicate 64 [])) (List.range 64) ∧ 1 ≤ (List.range 64).length ∧
    ∃ (fs' : FS) (writtenFiles' : List Nat) (rng' : Rand) (rounds : Nat),
      mergeRounds (List.range 64).length (FS.ofList (List.replicate 64 [])) (List.range 64)
          (Rand.ofList []) = some (fs', writtenFiles', rng', rounds) ∧
      rounds = ((List.range 64).length + 29) / 31 ∧
      (List.range 64).length ≤ 31 * rounds + 1 ∧ 31 * rounds ≤ (List.range 64).length + 29 :=
  ⟨queueOk_range 64, by simp,
   merge_rounds_linear (FS.ofList (List.replicate 64 [])) (List.range 64) (Rand.ofList [])
     (queueOk_range 64) (by simp)⟩

end Randomize

/-!
# The `fields` command: theorems
-/

namespace Fields

theorem digitChar_spec (k : Nat) (h : k < 10) :
    (Nat.digitChar k).isDigit = true ∧ (Nat.digitChar k).toNat - 48 = k := by
  interval_cases k <;> exact ⟨rfl, rfl⟩

theorem toDigitsCore_all (fuel n : Nat) (ds : List Char) (h : ds.all Char.isDigit = true) :
    (Nat.toDigitsCore 10 fuel n ds).all Char.isDigit = true := by
  induction fuel generalizing n ds with
  | zero => simpa [Nat.toDigitsCore] using h
  | succ fuel ih =>
    have hd := (digitChar_spec (n % 10) (Nat.mod_lt _ (by norm_num))).1
    have hcons : (Nat.digitChar (n % 10) :: ds).all Char.isDigit = true := by
      simp [List.all_cons, hd, h]
    simp only [Nat.toDigitsCore]
    split
    · exact hcons
    · exact ih _ _ hcons

theorem toDigitsCore_value (fuel n : Nat) (ds : List Char) (h : n < fuel) :
    digitsValue (Nat.toDigitsCore 10 fuel n ds) 0 = digitsValue ds n := by
  induction fuel generalizing n ds with
  | zero => omega
  | succ fuel ih =>
    have hd := (digitChar_spec (n % 10) (Nat.mod_lt _ (by norm_num))).2
    simp only [Nat.toDigitsCore]
    split
    · next h0 =>
      simp only [digitsValue, hd]
      congr 1
      omega
    · next h0 =>
      rw [ih (n / 10) _ (by omega)]
      simp only [digitsValue, hd]
      congr 1
      omega

theorem toDigitsCore_ne_nil (fuel n : Nat) (ds : List Char) :
    Nat.toDigitsCore 10 (fuel + 1) n ds ≠ [] := by
  induction fuel generalizing n ds with
  | zero => simp [Nat.toDigitsCore]
  | succ fuel ih =>
    rw [Nat.toDigitsCore]
    split
    · simp
    · exact ih _ _

/-- The decimal numeral of `N`: a non-empty string of digits of value `N`. -/
theorem toString_digits (N : Nat) :
    (toString N).toList ≠ [] ∧ (toString N).toList.all Char.isDigit = true ∧
      digitsValue (toString N).toList 0 = N := by
  have h : (toString N).toList = Nat.toDigitsCore 10 (N + 1) N [] := rfl
  rw [h]
  exact ⟨toDigitsCore_ne_nil _ _ _, toDigitsCore_all _ _ _ rfl,
    by rw [toDigitsCore_value _ _ _ (Nat.lt_succ_self N)]; rfl⟩

theorem digitsLength_of_all {ds : List Char} (h : ds.all Char.isDigit = true) :
    digitsLength ds = ds.length := by
  unfold digitsLength
  rw [List.takeWhile_eq_self_iff.2]
  simpa using h

theorem findAllFrom_skip (cs : List Char) (pos skip : Nat) (h : cs.length ≤ skip) :
    findAllFrom cs pos skip = [] := by
  induction cs generalizing pos skip with
  | nil => rfl
  | cons c cs ih =>
    cases skip with
    | zero => simp at h
    | succ skip => exact ih _ _ (by simpa using h)

theorem isDigit_ne {d : Char} (h : d.isDigit = true) : d ≠ '-' ∧ d ≠ '$' := by
  constructor <;> rintro rfl <;> simp [Char.isDigit] at h

/-- The matches in `$` followed by an optional `-` and a numeral. -/
theorem findAll_reference (sign ds : List Char) (hs : sign = [] ∨ sign = ['-'])
    (hne : ds ≠ []) (hall : ds.all Char.isDigit = true) :
    FindAllStringIndex ('$' :: (sign ++ ds)) = [(0, 1 + (sign ++ ds).length)] := by
  obtain ⟨d, rest, rfl⟩ := List.exists_cons_of_ne_nil hne
  have hd : d.isDigit = true := by simp [List.all_cons] at hall; exact hall.1
  have hlen := digitsLength_of_all hall
  rcases hs with rfl | rfl
  · have : matchLength ('$' :: d :: rest) = some (1 + (d :: rest).length) := by
      simp [matchLength, (isDigit_ne hd).1, hlen]
    simp only [FindAllStringIndex, findAllFrom, List.nil_append, this]
    rw [findAllFrom_skip _ _ _ (by simp)]
    simp
  · have : matchLength ('$' :: '-' :: d :: rest) = some (2 + (d :: rest).length) := by
      simp [matchLength, hlen]
    simp only [FindAllStringIndex, findAllFrom, List.cons_append, List.nil_append, this]
    rw [findAllFrom_skip _ _ _ (by simp; omega)]
    simp; omega

/-- What `parsePattern` makes of `$` followed by an optional `-` and a numeral. -/
theorem parsePattern_reference (pattern : String) (sign ds : List Char)
    (hp : pattern.toList = '$' :: (sign ++ ds)) (hs : sign = [] ∨ sign = ['-'])
    (hne : ds ≠ []) (hall : ds.all Char.isDigit = true) :
    parsePattern pattern =
      if Atoi (sign ++ ds) < 0 then [formatter.reverseFieldFormatter (Atoi (sign ++ ds))]
      else [formatter.fieldFormatter (Atoi (sign ++ ds))] := by
  have hslice : slice ('$' :: (sign ++ ds)) (0 + 1) (1 + (sign ++ ds).length) = sign ++ ds := by
    simp [slice]
  unfold parsePattern
  rw [hp, findAll_reference sign ds hs hne hall]
  simp only [parseLoop, hslice, gt_iff_lt, Nat.lt_irrefl, if_false, List.nil_append]
  split <;> simp <;> omega


theorem Atoi_digits (ds : List Char) (hne : ds ≠ []) (hall : ds.all Char.isDigit = true) :
    Atoi ds = min (digitsValue ds 0 : Int) (2 ^ 63 - 1) := by
  obtain ⟨d, rest, rfl⟩ := List.exists_cons_of_ne_nil hne
  have hd : d.isDigit = true := by simp [List.all_cons] at hall; exact hall.1
  have h1 : d ≠ '-' := (isDigit_ne hd).1
  have h2 : d ≠ '+' := by rintro rfl; simp [Char.isDigit] at hd
  unfold Atoi
  split
  · next heq => simp at heq; exact absurd heq.1 h1
  · next heq => simp at heq; exact absurd heq.1 h2
  · rw [if_pos ⟨hne, hall⟩]

theorem Atoi_minus_digits (ds : List Char) (hne : ds ≠ []) (hall : ds.all Char.isDigit = true) :
    Atoi ('-' :: ds) = max (-(digitsValue ds 0 : Int)) (-2 ^ 63) := by
  simp only [Atoi]
  rw [if_pos ⟨hne, hall⟩]

theorem wrap64_eq {x : Int} (h1 : -2 ^ 63 ≤ x) (h2 : x < 2 ^ 63) : wrap64 x = x := by
  unfold wrap64
  omega

theorem render_single (f : formatter) (fields : List String) :
    render [f] fields = f.transform fields := by
  simp only [render]
  cases f.transform fields <;> simp

/-- C15: forward field reference.  For every `N` and every list of fields (of
fewer than `2 ^ 63` elements, as every Go slice), the template `$N` is parsed
into one forward formatter and renders the field at 0-based position `N` when
`N` is less than the number of fields, the empty string otherwise. -/
theorem forward_reference (N : Nat) (fields : List String) (hlen : fields.length < 2 ^ 63) :
    parsePattern ("$" ++ toString N) = [formatter.fieldFormatter (min (N : Int) (2 ^ 63 - 1))] ∧
    render (parsePattern ("$" ++ toString N)) fields = some (fields[N]?.getD "") ∧
    (∀ h : N < fields.length,
      render (parsePattern ("$" ++ toString N)) fields = some fields[N]) ∧
    (fields.length ≤ N → render (parsePattern ("$" ++ toString N)) fields = some "") := by
  obtain ⟨hne, hall, hval⟩ := toString_digits N
  have hp : ("$" ++ toString N).toList = '$' :: ([] ++ (toString N).toList) := by simp
  have hparse := parsePattern_reference _ [] _ hp (Or.inl rfl) hne hall
  rw [List.nil_append, Atoi_digits _ hne hall, hval] at hparse
  have hnn : ¬ min (N : Int) (2 ^ 63 - 1) < 0 := by omega
  rw [if_neg hnn] at hparse
  have hr : render (parsePattern ("$" ++ toString N)) fields = some (fields[N]?.getD "") := by
    rw [hparse, render_single]
    simp only [formatter.transform, indexParts]
    by_cases hN : N < fields.length
    · have h1 : min (N : Int) (2 ^ 63 - 1) = N := by omega
      rw [h1, if_pos (by omega), if_pos (by omega)]
      simp [hN]
    · rw [if_neg (by omega)]
      simp [List.getElem?_eq_none (Nat.le_of_not_lt hN)]
  refine ⟨hparse, hr, ?_, ?_⟩
  · intro h
    rw [hr, List.getElem?_eq_getElem h]; rfl
  · intro h
    rw [hr, List.getElem?_eq_none h]; rfl

/-- C16: backward field reference.  For every `N >= 1` and every list of at
least `N` fields, the template `$-N` is parsed into one backward formatter of
index `-N` and renders the field at 0-based position `length - N`. -/
theorem backward_reference (N : Nat) (fields : List String) (h1 : 1 ≤ N)
    (hN : N ≤ fields.length) (hlen : fields.length < 2 ^ 63) :
    parsePattern ("$-" ++ toString N) = [formatter.reverseFieldFormatter (-(N : Int))] ∧
    render (parsePattern ("$-" ++ toString N)) fields = fields[fields.length - N]? ∧
    ∃ h : fields.length - N < fields.length,
      render (parsePattern ("$-" ++ toString N)) fields = some fields[fields.length - N] := by
  obtain ⟨hne, hall, hval⟩ := toString_digits N
  have hp : ("$-" ++ toString N).toList = '$' :: (['-'] ++ (toString N).toList) := by simp
  have hparse := parsePattern_reference _ ['-'] _ hp (Or.inr rfl) hne hall
  rw [List.singleton_append, Atoi_minus_digits _ hne hall, hval] at hparse
  have hm : max (-(N : Int)) (-2 ^ 63) = -(N : Int) := by omega
  rw [hm, if_pos (by omega)] at hparse
  have hw : wrap64 ((fields.length : Int) + -(N : Int)) = ((fields.length - N : Nat) : Int) := by
    rw [wrap64_eq (by omega) (by omega)]; omega
  have hr : render (parsePattern ("$-" ++ toString N)) fields = fields[fields.length - N]? := by
    rw [hparse, render_single]
    simp only [formatter.transform, indexParts, hw]
    rw [if_pos (by omega), if_pos (by omega)]
    simp
  have hlt : fields.length - N < fields.length := by omega
  refine ⟨hparse, hr, hlt, ?_⟩
  rw [hr, List.getElem?_eq_getElem hlt]


theorem digitsLength_pos {s : List Char} (h : digitsLength s ≠ 0) :
    ∃ d after, s = d :: after ∧ d.isDigit = true := by
  cases s with
  | nil => simp [digitsLength] at h
  | cons d after =>
    refine ⟨d, after, rfl, ?_⟩
    by_contra hd
    simp [digitsLength, List.takeWhile_cons, hd] at h

theorem matchLength_some {s : List Char} {n : Nat} (h : matchLength s = some n) :
    hasFieldReference s := by
  unfold matchLength at h
  split at h
  · simp at h
  · next c rest =>
    split at h
    · next hc =>
      subst hc
      split at h
      · simp at h
      · next d rest' =>
        split at h
        · next hd =>
          subst hd
          split at h
          · simp at h
          · next hl =>
            obtain ⟨d', after, rfl, hd'⟩ := digitsLength_pos hl
            exact ⟨[], after, d', hd', Or.inr rfl⟩
        · split at h
          · simp at h
          · next hl =>
            obtain ⟨d', after, heq, hd'⟩ := digitsLength_pos hl
            exact ⟨[], after, d', hd', Or.inl (by rw [heq]; rfl)⟩
    · simp at h

theorem hasFieldReference_cons {c : Char} {cs : List Char} (h : hasFieldReference cs) :
    hasFieldReference (c :: cs) := by
  obtain ⟨before, after, d, hd, h | h⟩ := h
  · exact ⟨c :: before, after, d, hd, Or.inl (by rw [h]; rfl)⟩
  · exact ⟨c :: before, after, d, hd, Or.inr (by rw [h]; rfl)⟩

theorem findAllFrom_no_reference (cs : List Char) (pos skip : Nat)
    (h : ¬ hasFieldReference cs) : findAllFrom cs pos skip = [] := by
  induction cs generalizing pos skip with
  | nil => rfl
  | cons c cs ih =>
    have hcs : ¬ hasFieldReference cs := fun h' => h (hasFieldReference_cons h')
    cases skip with
    | succ skip => exact ih _ _ hcs
    | zero =>
      cases hm : matchLength (c :: cs) with
      | some n => exact absurd (matchLength_some hm) h
      | none => simp only [findAllFrom, hm]; exact ih _ _ hcs

theorem findAllFrom_of_reference (before rest : List Char) (pos : Nat)
    (h : ∃ n, matchLength rest = some n) : findAllFrom (before ++ rest) pos 0 ≠ [] := by
  induction before generalizing pos with
  | nil =>
    obtain ⟨n, hn⟩ := h
    cases rest with
    | nil => simp [matchLength] at hn
    | cons c cs => simp [findAllFrom, hn]
  | cons b before ih =>
    simp only [List.cons_append, findAllFrom]
    split
    · simp
    · exact ih _

/-- A pattern has a field reference exactly when the expression matches
somewhere. -/
theorem hasFieldReference_iff (pattern : List Char) :
    hasFieldReference pattern ↔ FindAllStringIndex pattern ≠ [] := by
  constructor
  · rintro ⟨before, after, d, hd, rfl | rfl⟩
    · refine findAllFrom_of_reference before _ 0 ⟨1 + digitsLength (d :: after), ?_⟩
      have : digitsLength (d :: after) ≠ 0 := by simp [digitsLength, List.takeWhile_cons, hd]
      simp [matchLength, (isDigit_ne hd).1, this]
    · refine findAllFrom_of_reference before _ 0 ⟨2 + digitsLength (d :: after), ?_⟩
      have : digitsLength (d :: after) ≠ 0 := by simp [digitsLength, List.takeWhile_cons, hd]
      simp [matchLength, this]
  · intro h
    by_contra hno
    exact h (findAllFrom_no_reference pattern 0 0 hno)

theorem findAllFrom_start (cs : List Char) (pos skip : Nat) :
    ∀ m ∈ findAllFrom cs pos skip, m.1 < pos + cs.length := by
  induction cs generalizing pos skip with
  | nil => simp [findAllFrom]
  | cons c cs ih =>
    intro m hm
    cases skip with
    | succ skip =>
      have := ih (pos + 1) skip m hm
      simp only [List.length_cons]; omega
    | zero =>
      simp only [findAllFrom] at hm
      split at hm
      · rcases List.mem_cons.1 hm with rfl | hm
        · simp
        · have := ih _ _ m hm
          simp only [List.length_cons]; omega
      · have := ih _ _ m hm
        simp only [List.length_cons]; omega

theorem Atoi_range (s : List Char) : -2 ^ 63 ≤ Atoi s ∧ Atoi s < 2 ^ 63 := by
  unfold Atoi
  split <;> split <;> omega

theorem mk_ne_empty {l : List Char} (h : l ≠ []) : String.mk l ≠ "" := by
  intro he
  apply h
  have := congrArg String.toList he
  simpa using this

theorem slice_ne_nil {pattern : List Char} {lo hi : Nat} (h1 : lo < hi)
    (h2 : lo < pattern.length) : slice pattern lo hi ≠ [] := by
  intro he
  have := congrArg List.length he
  simp [slice] at this
  omega

theorem parseLoop_wellFormed (pattern : List Char) (result : List (Nat × Nat)) (previous : Nat)
    (acc : List formatter) (hres : ∀ m ∈ result, m.1 < pattern.length)
    (hacc : ∀ f ∈ acc, wellFormed f) :
    ∀ f ∈ (parseLoop pattern result previous acc).2, wellFormed f := by
  induction result generalizing previous acc with
  | nil => simpa [parseLoop] using hacc
  | cons m result ih =>
    have hm := hres m (List.mem_cons_self _ _)
    have hres' : ∀ m' ∈ result, m'.1 < pattern.length := fun m' h' =>
      hres m' (List.mem_cons_of_mem _ h')
    have hlit : ∀ f ∈ (if m.1 > previous then
        acc ++ [formatter.literalFormatter (String.mk (slice pattern previous m.1))]
        else acc), wellFormed f := by
      intro f hf
      split at hf
      · next hgt =>
        rcases List.mem_append.1 hf with hf | hf
        · exact hacc f hf
        · rw [List.mem_singleton] at hf
          subst hf
          exact mk_ne_empty (slice_ne_nil hgt (by omega))
      · exact hacc f hf
    have hr := Atoi_range (slice pattern (m.1 + 1) m.2)
    simp only [parseLoop]
    split
    · next hneg =>
      apply ih _ _ hres'
      intro f hf
      rcases List.mem_append.1 hf with hf | hf
      · exact hlit f hf
      · rw [List.mem_singleton] at hf
        subst hf
        exact ⟨hr.1, hneg⟩
    · next hneg =>
      apply ih _ _ hres'
      intro f hf
      rcases List.mem_append.1 hf with hf | hf
      · exact hlit f hf
      · rw [List.mem_singleton] at hf
        subst hf
        exact ⟨by omega, hr.2⟩

/-- Every formatter `parsePattern` builds is well formed. -/
theorem parsePattern_wellFormed (pattern : String) : ∀ f ∈ parsePattern pattern, wellFormed f := by
  have hloop := parseLoop_wellFormed pattern.toList (FindAllStringIndex pattern.toList) 0 []
    (fun m hm => by simpa using findAllFrom_start pattern.toList 0 0 m hm) (by simp)
  intro f hf
  unfold parsePattern at hf
  simp only at hf
  split at hf
  · next hlt =>
    rcases List.mem_append.1 hf with hf | hf
    · exact hloop f hf
    · rw [List.mem_singleton] at hf
      subst hf
      exact mk_ne_empty (slice_ne_nil hlt hlt)
  · exact hloop f hf

theorem transform_wellFormed (f : formatter) (fields : List String) (h : wellFormed f) :
    ∃ s, f.transform fields = some s := by
  cases f with
  | literalFormatter literal => exact ⟨literal, rfl⟩
  | fieldFormatter index =>
    obtain ⟨h0, -⟩ := h
    simp only [formatter.transform, indexParts]
    by_cases hlt : index < (fields.length : Int)
    · rw [if_pos hlt, if_pos h0]
      have : index.toNat < fields.length := by omega
      exact ⟨fields[index.toNat], List.getElem?_eq_getElem this⟩
    · rw [if_neg hlt]; exact ⟨"", rfl⟩
  | reverseFieldFormatter index =>
    obtain ⟨h0, h1⟩ := h
    simp only [formatter.transform, indexParts]
    by_cases hw : wrap64 ((fields.length : Int) + index) ≥ 0
    · rw [if_pos hw, if_pos hw]
      have : (wrap64 ((fields.length : Int) + index)).toNat < fields.length := by
        unfold wrap64 at hw ⊢
        omega
      exact ⟨_, List.getElem?_eq_getElem this⟩
    · rw [if_neg hw]; exact ⟨"", rfl⟩

theorem render_wellFormed (formatters : List formatter) (fields : List String)
    (h : ∀ f ∈ formatters, wellFormed f) : ∃ s, render formatters fields = some s := by
  induction formatters with
  | nil => exact ⟨"", rfl⟩
  | cons f rest ih =>
    obtain ⟨s, hs⟩ := transform_wellFormed f fields (h f (List.mem_cons_self _ _))
    obtain ⟨t, ht⟩ := ih fun g hg => h g (List.mem_cons_of_mem _ hg)
    exact ⟨s ++ t, by simp [render, hs, ht]⟩

/-- C17: the template example, generalised.  `parsePattern` makes of `$0-$-1`
the forward field 0, the literal `-` and the backward field -1; with the empty
separator a line is split by `strings.Fields`, and for every line with at least
one field `execute` prints the first field, `-`, the last field and a newline. -/
theorem template_example (line : String) (hne : getSplitter (some "") line ≠ [])
    (hlen : (getSplitter (some "") line).length < 2 ^ 63) :
    parsePattern "$0-$-1" =
      [formatter.fieldFormatter 0, formatter.literalFormatter "-",
        formatter.reverseFieldFormatter (-1)] ∧
    getSplitter (some "") line = stringsFields line ∧
    ∃ first last : String,
      (getSplitter (some "") line).head? = some first ∧
      (getSplitter (some "") line).getLast? = some last ∧
      execute (parsePattern "$0-$-1") (getSplitter (some "") line) =
        some (first ++ "-" ++ last ++ "\n") := by
  have hparse : parsePattern "$0-$-1" =
      [formatter.fieldFormatter 0, formatter.literalFormatter "-",
        formatter.reverseFieldFormatter (-1)] := by decide
  refine ⟨hparse, rfl, ?_⟩
  generalize getSplitter (some "") line = fields at hne hlen
  obtain ⟨first, rest, rfl⟩ := List.exists_cons_of_ne_nil hne
  have hlast : ∃ last, (first :: rest).getLast? = some last :=
    ⟨(first :: rest).getLast (by simp), List.getLast?_eq_getLast _ (by simp)⟩
  obtain ⟨last, hl⟩ := hlast
  refine ⟨first, last, rfl, hl, ?_⟩
  have hw : wrap64 (((first :: rest).length : Int) + -1) = ((rest.length : Nat) : Int) := by
    rw [wrap64_eq (by simp only [List.length_cons]; omega) (by omega)]
    simp only [List.length_cons]; omega
  have hidx : (first :: rest)[rest.length]? = some last := by
    rw [← hl, List.getLast?_eq_getElem?]; simp
  rw [hparse]
  simp only [execute, render, formatter.transform, indexParts, hw]
  simp [hidx, String.append_assoc]

/-- C18: rendering never indexes out of range.  For every pattern and every
list of fields, every formatter `parsePattern` builds renders without a panic,
a backward formatter has a strictly negative index and a forward one a
non-negative index, and `execute` prints a line; `$-0` becomes the forward
field 0; and a backward reference `$-N` with `N` greater than the number of
fields renders the empty string. -/
theorem rendering_in_range (pattern : String) (fields : List String) (N : Nat) :
    (∀ f ∈ parsePattern pattern,
      (∃ s, f.transform fields = some s) ∧
      (∀ index, f = formatter.reverseFieldFormatter index → index < 0) ∧
      (∀ index, f = formatter.fieldFormatter index → 0 ≤ index)) ∧
    (∃ printed, execute (parsePattern pattern) fields = some printed) ∧
    parsePattern "$-0" = [formatter.fieldFormatter 0] ∧
    (fields.length < N → fields.length < 2 ^ 63 →
      render (parsePattern ("$-" ++ toString N)) fields = some "") := by
  have hwf := parsePattern_wellFormed pattern
  refine ⟨?_, ?_, by decide, ?_⟩
  · intro f hf
    refine ⟨transform_wellFormed f fields (hwf f hf), ?_, ?_⟩
    · rintro index rfl; exact (hwf _ hf).2
    · rintro index rfl; exact (hwf _ hf).1
  · obtain ⟨s, hs⟩ := render_wellFormed _ fields hwf
    exact ⟨s ++ "\n", by simp [execute, hs]⟩
  · intro hN hlen
    obtain ⟨hne, hall, hval⟩ := toString_digits N
    have hp : ("$-" ++ toString N).toList = '$' :: (['-'] ++ (toString N).toList) := by simp
    have hparse := parsePattern_reference _ ['-'] _ hp (Or.inr rfl) hne hall
    rw [List.singleton_append, Atoi_minus_digits _ hne hall, hval] at hparse
    rw [if_pos (by omega)] at hparse
    rw [hparse, render_single]
    simp only [formatter.transform]
    rw [if_neg]
    unfold wrap64
    omega

/-- C19: literal text is emitted verbatim.  For every pattern without a field
reference and every list of fields the rendered line is the pattern itself,
printed with a newline; the empty pattern is parsed into no formatter and prints
the empty line; and no pattern is ever parsed into an empty literal. -/
theorem literal_verbatim (pattern : String) (fields : List String)
    (h : ¬ hasFieldReference pattern.toList) :
    render (parsePattern pattern) fields = some pattern ∧
    execute (parsePattern pattern) fields = some (pattern ++ "\n") ∧
    parsePattern "" = [] ∧
    execute (parsePattern "") fields = some "\n" ∧
    ∀ (other literal : String),
      formatter.literalFormatter literal ∈ parsePattern other → literal ≠ "" := by
  have hfind : FindAllStringIndex pattern.toList = [] := findAllFrom_no_reference _ 0 0 h
  have hr : render (parsePattern pattern) fields = some pattern := by
    unfold parsePattern
    simp only [hfind, parseLoop]
    by_cases hlen : 0 < pattern.toList.length
    · rw [if_pos hlen]
      have hsl : slice pattern.toList 0 pattern.toList.length = pattern.toList := by
        simp [slice]
      have hs : String.mk pattern.toList = pattern := rfl
      rw [hsl, hs, List.nil_append, render_single]
      rfl
    · rw [if_neg hlen]
      have : pattern = "" := by
        have h0 : pattern.toList = [] := List.length_eq_zero.1 (by omega)
        have := congrArg String.mk h0
        simpa using this
      rw [this]; rfl
  have hempty : parsePattern "" = [] := by decide
  refine ⟨hr, by simp [execute, hr], hempty, by rw [hempty]; rfl, ?_⟩
  intro other literal hmem
  exact parsePattern_wellFormed other _ hmem

/-- C15, at a concrete input: three fields, position 1. -/
theorem forward_reference_witness :
    ["x", "y", "z"].length < 2 ^ 63 ∧
    render (parsePattern "$1") ["x", "y", "z"] = some "y" ∧
    render (parsePattern "$7") ["x", "y", "z"] = some "" ∧
    (parsePattern ("$" ++ toString 1) = [formatter.fieldFormatter (min ((1 : Nat) : Int) (2 ^ 63 - 1))] ∧
    render (parsePattern ("$" ++ toString 1)) ["x", "y", "z"] = some (["x", "y", "z"][1]?.getD "") ∧
    (∀ h : 1 < ["x", "y", "z"].length,
      render (parsePattern ("$" ++ toString 1)) ["x", "y", "z"] = some (["x", "y", "z"].get ⟨1, h⟩)) ∧
    (["x", "y", "z"].length ≤ 1 →
      render (parsePattern ("$" ++ toString 1)) ["x", "y", "z"] = some "")) :=
  ⟨by decide, by decide, by decide, forward_reference 1 ["x", "y", "z"] (by decide)⟩

/-- C16, at a concrete input: three fields, the last and the first from the end. -/
theorem backward_reference_witness :
    1 ≤ 1 ∧ 1 ≤ ["x", "y", "z"].length ∧ ["x", "y", "z"].length < 2 ^ 63 ∧
    render (parsePattern "$-1") ["x", "y", "z"] = some "z" ∧
    render (parsePattern "$-3") ["x", "y", "z"] = some "x" ∧
    (parsePattern ("$-" ++ toString 1) = [formatter.reverseFieldFormatter (-((1 : Nat) : Int))] ∧
    render (parsePattern ("$-" ++ toString 1)) ["x", "y", "z"] =
      ["x", "y", "z"][["x", "y", "z"].length - 1]? ∧
    ∃ h : ["x", "y", "z"].length - 1 < ["x", "y", "z"].length,
      render (parsePattern ("$-" ++ toString 1)) ["x", "y", "z"] =
        some (["x", "y", "z"].get ⟨["x", "y", "z"].length - 1, h⟩)) :=
  ⟨by decide, by decide, by decide, by decide, by decide,
   backward_reference 1 ["x", "y", "z"] (by decide) (by decide) (by decide)⟩

/-- C17, at a concrete input: the line `x y z` prints `x-z`. -/
theorem template_example_witness :
    getSplitter (some "") "x y z" ≠ [] ∧ (getSplitter (some "") "x y z").length < 2 ^ 63 ∧
    getSplitter (some "") "x y z" = ["x", "y", "z"] ∧
    main "" ["$0-$-1"] ["x y z"] = some ["x-z\n"] ∧
    (parsePattern "$0-$-1" =
      [formatter.fieldFormatter 0, formatter.literalFormatter "-",
        formatter.reverseFieldFormatter (-1)] ∧
    getSplitter (some "") "x y z" = stringsFields "x y z" ∧
    ∃ first last : String,
      (getSplitter (some "") "x y z").head? = some first ∧
      (getSplitter (some "") "x y z").getLast? = some last ∧
      execute (parsePattern "$0-$-1") (getSplitter (some "") "x y z") =
        some (first ++ "-" ++ last ++ "\n")) :=
  ⟨by decide, by decide, by decide, by decide,
   template_example "x y z" (by decide) (by decide)⟩

/-- C18, at a concrete input: two references rendered on the empty list of
fields. -/
theorem rendering_in_range_witness :
    ([] : List String).length < 1 ∧ ([] : List String).length < 2 ^ 63 ∧
    execute (parsePattern "a$1b$-2") [] = some "ab\n" ∧
    render (parsePattern ("$-" ++ toString 1)) [] = some "" :=
  ⟨by decide, by decide, by decide,
   (rendering_in_range "a$1b$-2" [] 1).2.2.2 (by decide) (by decide)⟩

/-- C19, at a concrete input: a pattern whose `$` is not followed by a digit. -/
theorem literal_verbatim_witness :
    ¬ hasFieldReference "a-b $x".toList ∧
    render (parsePattern "a-b $x") ["q"] = some "a-b $x" ∧
    execute (parsePattern "a-b $x") ["q"] = some ("a-b $x" ++ "\n") ∧
    parsePattern "" = [] ∧
    execute (parsePattern "") ["q"] = some "\n" ∧
    ∀ (other literal : String),
      formatter.literalFormatter literal ∈ parsePattern other → literal ≠ "" :=
  ⟨fun h => (hasFieldReference_iff _).1 h (by decide),
   literal_verbatim "a-b $x" ["q"]
     (fun h => (hasFieldReference_iff _).1 h (by decide))⟩

end Fields
